import Mathlib

/-!
# Scheduler registry (`scheduler/scheduler.go`)

A shallow embedding of the LIFO scheduler registry: the `Config` value type,
`Stack` objects living in a heap, the `Registry` with its `stacks` map, and the
route post-processor `Registry.Do` together with `Registry.Close`.

Pointers `*Stack` are heap addresses (indices into the list of allocated
`Stack` objects); an address outside the heap plays the role of a nil pointer,
and dereferencing it makes the operation fail (`none`), as a Go panic would;
so does closing a Stack a second time.
Every call that is observable from outside the registry (allocation, `close`,
map write, `SetStack`, error log) is appended to a history kept next to the
heap, so that statements such as "no Stack is closed" can be read off it.
-/

namespace Scheduler

/-! ## Data model -/

/-- The `Config` struct: three comparable integer fields (`time.Duration` is an
integer number of nanoseconds). -/
structure Config where
  MaxConcurrency : Int
  MaxStackSize : Int
  Timeout : Int
deriving DecidableEq, Repr

/-- The zero value of `Config`, which Go returns when a map has no entry. -/
def Config.zero : Config := ⟨0, 0, 0⟩

/-- The `Stack` struct. The wrapped `*jobstack.Stack` is an external object; the
only part of its state the registry drives is whether `Close` was called on it. -/
structure Stack where
  config : Config
  closed : Bool
deriving DecidableEq, Repr

/-- The `Registry` struct. `global` is a possibly nil `*Stack`; `groupConfig` is
a possibly nil Go map; `stackMap` is the field `stacks` (a reserved word here), a
Go map from name to `*Stack`, kept as an
association list read through `Registry.get` and written through `Registry.set`. -/
structure Registry where
  global : Option Nat
  groupConfig : Option (List (String × Config))
  stackMap : List (String × Nat)
deriving DecidableEq, Repr

/-- Modelled from the spec: the filter type of the routing package is not part
of the sources. A filter instance exposes the capabilities "has a per-route
Configuration" (`ConfiguredFilter`, `config = some c` with `c` the value of
`Config()`) and "has a group name" (`GroupFilter`, `groupName = some n` with `n`
the value of `GroupName()`); it may have both or neither. -/
structure Filter where
  config : Option Config
  groupName : Option String
deriving DecidableEq, Repr

/-- Modelled from the spec: the route type of the routing package is not part of
the sources. A route carries an identifier and an ordered sequence of filter
instances. -/
structure Route where
  Id : String
  Filters : List Filter
deriving DecidableEq, Repr

/-- What the registry does that is visible from outside: `created p c` is the
allocation `newStack(c)` returning address `p`, `closed p` is `s.close()` on
address `p`, `stored n p` is `r.set(n, s)`, `bound i j p` is `SetStack(s)` called
on filter `j` of route `i`, and `logged i` is the error log for route `i`. -/
inductive Event where
  | created (p : Nat) (c : Config)
  | closed (p : Nat)
  | stored (name : String) (p : Nat)
  | bound (route : Nat) (filter : Nat) (p : Nat)
  | logged (route : Nat)
deriving DecidableEq, Repr

/-- The program state: the heap of allocated `Stack` objects, the registry, and
the history of events so far. -/
structure World where
  heap : List Stack
  reg : Registry
  trace : List Event
deriving DecidableEq, Repr

/-! ## Operations -/

/-- The function `newStack`: allocates a fresh open `Stack` holding `c` at the
next free address and returns that address. -/
def newStack (c : Config) (w : World) : Nat × World :=
  (w.heap.length,
    { w with
      heap := w.heap ++ [{ config := c, closed := false }]
      trace := w.trace ++ [Event.created w.heap.length c] })

/-- The method `Stack.close`: closes the object at address `p`; fails on an
address that is not allocated. The call is forwarded, without any guard, to
`Close` of the external `jobstack` object, which may be called once: on an
object that is already closed it panics, so closing a closed Stack fails. -/
def Stack.close (p : Nat) (w : World) : Option World :=
  match w.heap[p]? with
  | none => none
  | some s =>
    if s.closed then none
    else
      some { w with
        heap := w.heap.set p { s with closed := true }
        trace := w.trace ++ [Event.closed p] }

/-- Reading a Go map kept as an association list: the entry of `name`, if any. -/
def lookup {α : Type} (name : String) : List (String × α) → Option α
  | [] => none
  | (k, v) :: rest => if k = name then some v else lookup name rest

/-- Writing a Go map kept as an association list: overwrite the entry of `name`
when there is one, add one otherwise. -/
def insert {α : Type} (name : String) (v : α) : List (String × α) → List (String × α)
  | [] => [(name, v)]
  | (k, x) :: rest => if k = name then (name, v) :: rest else (k, x) :: insert name v rest

/-- The method `Registry.get`: `none` stands for `ok = false`. -/
def Registry.get (r : Registry) (name : String) : Option Nat :=
  lookup name r.stackMap

/-- The method `Registry.set`. -/
def Registry.set (name : String) (p : Nat) (w : World) : World :=
  { w with
    reg := { w.reg with stackMap := insert name p w.reg.stackMap }
    trace := w.trace ++ [Event.stored name p] }

/-- The expression `r.groupConfig[n]`: the zero `Config` when the map is nil or
has no entry for `n`. -/
def Registry.groupConfigAt (r : Registry) (n : String) : Config :=
  match r.groupConfig with
  | none => Config.zero
  | some m => (lookup n m).getD Config.zero

/-- The call `SetStack(s)` on filter `j` of route `i`. -/
def SetStack (i j p : Nat) (w : World) : World :=
  { w with trace := w.trace ++ [Event.bound i j p] }

/-- The function `NewRegistry`, run on an empty heap. -/
def NewRegistry (global : Config) (groups : Option (List (String × Config))) : World :=
  let (g, w) := newStack global
    { heap := [], reg := { global := none, groupConfig := none, stackMap := [] }, trace := [] }
  { w with reg := { global := some g, groupConfig := groups, stackMap := [] } }

namespace Do

/-- The `ConfiguredFilter` branch of the inner loop of `Do` for filter `j` of
route `i` with identifier `id`, whose `Config()` is `c`. -/
def configured (i j : Nat) (id : String) (c : Config) (w : World) : Option World :=
  match w.reg.get id with
  | none =>
    let (s, w1) := newStack c w
    some (SetStack i j s (Registry.set id s w1))
  | some s =>
    match w.heap[s]? with
    | none => none
    | some obj =>
      if c ≠ obj.config then
        match Stack.close s w with
        | none => none
        | some w1 =>
          let (s2, w2) := newStack c w1
          some (SetStack i j s2 (Registry.set id s2 w2))
      else
        some (SetStack i j s w)

/-- The `GroupFilter` branch of the inner loop of `Do` for filter `j` of route
`i`, whose `GroupName()` is `n`. -/
def group (i j : Nat) (n : String) (w : World) : World :=
  match w.reg.get n with
  | none =>
    let (s, w1) := newStack (w.reg.groupConfigAt n) w
    SetStack i j s (Registry.set n s w1)
  | some s => SetStack i j s w

/-- The body of the inner loop of `Do`: both type assertions are tried, in this
order, on every filter; `found` is the variable `foundStack`. -/
def filter (i j : Nat) (id : String) (f : Filter) (st : World × Bool) : Option (World × Bool) :=
  let afterConfigured : Option (World × Bool) :=
    match f.config with
    | some c => (configured i j id c st.1).map (fun w => (w, true))
    | none => some st
  match afterConfigured with
  | none => none
  | some st1 =>
    match f.groupName with
    | some n => some (group i j n st1.1, true)
    | none => some st1

/-- The inner loop of `Do` over the filters of route `i`, starting at filter
index `j`. -/
def filters (i : Nat) (id : String) : Nat → List Filter → World × Bool → Option (World × Bool)
  | _, [], st => some st
  | j, f :: fs, st =>
    match filter i j id f st with
    | none => none
    | some st1 => filters i id (j + 1) fs st1

/-- The body of the outer loop of `Do` for the route at index `i`: `rr[i] = ri`,
the inner loop, and the error log when no scheduler filter was found. The last
conditional of the source has an empty body. -/
def route (i : Nat) (ri : Route) (st : World × List (Option Route)) :
    Option (World × List (Option Route)) :=
  let rr := st.2.set i (some ri)
  match filters i ri.Id 0 ri.Filters (st.1, false) with
  | none => none
  | some (w, found) =>
    if found then some (w, rr)
    else some ({ w with trace := w.trace ++ [Event.logged i] }, rr)

/-- The outer loop of `Do`, starting at route index `i`. -/
def routes : Nat → List Route → World × List (Option Route) →
    Option (World × List (Option Route))
  | _, [], st => some st
  | i, ri :: rs, st =>
    match route i ri st with
    | none => none
    | some st1 => routes (i + 1) rs st1

end Do

/-- The method `Registry.Do`: `rr` starts as a slice of `len(routes)` nil
entries, the loop fills it, and it is returned. -/
def Registry.Do (w : World) (rs : List Route) : Option (World × List (Option Route)) :=
  Do.routes 0 rs (w, List.replicate rs.length none)

/-- The loop of `Registry.Close` over the entries of the `stacks` map. -/
def closeAll : List (String × Nat) → World → Option World
  | [], w => some w
  | (_, p) :: rest, w =>
    match Stack.close p w with
    | none => none
    | some w1 => closeAll rest w1

/-- The method `Registry.Close`: closes every stored `Stack`, then the global
one (a nil `global` makes the call fail, and so does a Stack that is already
closed). -/
def Registry.Close (w : World) : Option World :=
  match closeAll w.reg.stackMap w with
  | none => none
  | some w1 =>
    match w1.reg.global with
    | none => none
    | some g => Stack.close g w1

/-! ## Reading a history -/

/-- The address filter `j` of route `i` is bound to at the end of a history:
the argument of the last `SetStack` call on it. -/
def boundTo (i j : Nat) : List Event → Option Nat
  | [] => none
  | e :: rest =>
    match boundTo i j rest with
    | some p => some p
    | none =>
      match e with
      | Event.bound i2 j2 p => if i2 = i ∧ j2 = j then some p else none
      | _ => none

/-- Whether the object at address `p` is allocated and closed. -/
def isClosed (w : World) (p : Nat) : Bool :=
  match w.heap[p]? with
  | some s => s.closed
  | none => false

/-- Whether the object at address `p` is allocated and open. -/
def isOpen (w : World) (p : Nat) : Bool :=
  match w.heap[p]? with
  | some s => !s.closed
  | none => false

/-- The state after a branch of `Do` found no entry for `name`: a Stack with
config `c` is allocated, stored under `name` and passed to `SetStack`. -/
def createdWorld (w : World) (i j : Nat) (name : String) (c : Config) : World :=
  { heap := w.heap ++ [{ config := c, closed := false }]
    reg := { w.reg with stackMap := insert name w.heap.length w.reg.stackMap }
    trace := w.trace ++ [Event.created w.heap.length c, Event.stored name w.heap.length,
      Event.bound i j w.heap.length] }

/-- The state after a branch of `Do` found the entry `p` and kept it: only
`SetStack` is called. -/
def keptWorld (w : World) (i j p : Nat) : World :=
  { w with trace := w.trace ++ [Event.bound i j p] }

/-- The state after the per-route branch replaced the Stack at address `p`
(holding `s`) by a new one with config `c`. -/
def replacedWorld (w : World) (i j : Nat) (id : String) (c : Config) (p : Nat) (s : Stack) :
    World :=
  { heap := w.heap.set p { config := s.config, closed := true } ++
      [{ config := c, closed := false }]
    reg := { w.reg with stackMap := insert id w.heap.length w.reg.stackMap }
    trace := w.trace ++ [Event.closed p, Event.created w.heap.length c,
      Event.stored id w.heap.length, Event.bound i j w.heap.length] }

/-- A concrete state: the global Stack at address 0 and the Stack of route
`"r"` at address 1, both open, as left by one `Do` pass over `sampleTable`
below on a new registry. -/
def sampleWorld : World :=
  { heap := [{ config := ⟨5, 5, 5⟩, closed := false }, { config := ⟨1, 2, 3⟩, closed := false }]
    reg := { global := some 0, groupConfig := none, stackMap := [("r", 1)] }
    trace := [Event.created 0 ⟨5, 5, 5⟩, Event.created 1 ⟨1, 2, 3⟩, Event.stored "r" 1,
      Event.bound 0 0 1] }

/-- Every address stored in the map is allocated: no stored pointer is nil. -/
def StoredValid (w : World) : Prop :=
  ∀ e ∈ w.reg.stackMap, e.2 < w.heap.length

instance (w : World) : Decidable (StoredValid w) := by
  unfold StoredValid; infer_instance

/-- The global pointer is not nil and is allocated. -/
def GlobalValid (w : World) : Prop :=
  ∃ g, w.reg.global = some g ∧ g < w.heap.length

/-- Both validity conditions at once. -/
def Valid (w : World) : Prop := StoredValid w ∧ GlobalValid w

/-- States reachable from `NewRegistry` by `Do` passes only. -/
inductive ReachDo : World → Prop where
  | init (global : Config) (groups : Option (List (String × Config))) :
      ReachDo (NewRegistry global groups)
  | pass (w w2 : World) (rs : List Route) (rr : List (Option Route)) :
      ReachDo w → Registry.Do w rs = some (w2, rr) → ReachDo w2

/-- What holds of the heap and the map in every state reachable by `Do` passes:
the map has one entry per name, no Stack is stored twice, every stored Stack is
open, and the global Stack is open and stored under no name. -/
structure Live (w : World) : Prop where
  names : (w.reg.stackMap.map Prod.fst).Nodup
  addrs : (w.reg.stackMap.map Prod.snd).Nodup
  allOpen : ∀ e ∈ w.reg.stackMap, isOpen w e.2 = true
  globalOpen : ∃ g, w.reg.global = some g ∧ isOpen w g = true ∧
    ∀ e ∈ w.reg.stackMap, e.2 ≠ g

/-- The state left by one `Do` pass over `twoFilterTable` below on a new
registry: the Stack first stored under `"r"` (address 1) was replaced by the
one at address 2 and is closed. -/
def replacedSample : World :=
  { heap := [{ config := ⟨5, 5, 5⟩, closed := false }, { config := ⟨1, 2, 3⟩, closed := true },
      { config := ⟨2, 2, 3⟩, closed := false }]
    reg := { global := some 0, groupConfig := none, stackMap := [("r", 2)] }
    trace := [Event.created 0 ⟨5, 5, 5⟩, Event.created 1 ⟨1, 2, 3⟩, Event.stored "r" 1,
      Event.bound 0 0 1, Event.closed 1, Event.created 2 ⟨2, 2, 3⟩, Event.stored "r" 2,
      Event.bound 0 1 2] }

/-- The relation between a state and a later one in which only `close` calls
happened: same registry, same objects with the same configs, and whatever was
closed is still closed. -/
def OnlyClosed (w w2 : World) : Prop :=
  w2.reg = w.reg ∧ w2.heap.length = w.heap.length ∧
    w2.heap.map Stack.config = w.heap.map Stack.config ∧
    ∀ q, isClosed w q = true → isClosed w2 q = true

/-- The invariant of the states reachable by `Do` passes, read on the history:
a stored address is allocated, the address stored under a name was stored under
it by a `set` call and is open, an address once stored under a name and no
longer stored under it is closed, and no address was stored under two names. -/
structure Inv (w : World) : Prop where
  valid : StoredValid w
  alloc : ∀ k p, Event.stored k p ∈ w.trace → p < w.heap.length
  live : ∀ k p, w.reg.get k = some p → Event.stored k p ∈ w.trace ∧ isOpen w p = true
  dead : ∀ k p, Event.stored k p ∈ w.trace → w.reg.get k ≠ some p → isClosed w p = true
  uniq : ∀ k k2 p, Event.stored k p ∈ w.trace → Event.stored k2 p ∈ w.trace → k = k2

/-- A route table with one route carrying one per-route filter. -/
def sampleTable : List Route :=
  [{ Id := "r", Filters := [{ config := some ⟨1, 2, 3⟩, groupName := none }] }]

/-- A route table with one route carrying two per-route filters that declare
different configs. -/
def twoFilterTable : List Route :=
  [{ Id := "r", Filters := [{ config := some ⟨1, 2, 3⟩, groupName := none },
      { config := some ⟨2, 2, 3⟩, groupName := none }] }]

/-- A route table in which the identifier of the second route, which carries a
per-route filter, is also the group name declared on the first and third route. -/
def clashTable : List Route :=
  [{ Id := "a", Filters := [{ config := none, groupName := some "g" }] },
   { Id := "g", Filters := [{ config := some ⟨1, 1, 1⟩, groupName := none }] },
   { Id := "b", Filters := [{ config := none, groupName := some "g" }] }]

/-- A route table declaring group `"g"` on its only route. -/
def groupTable : List Route :=
  [{ Id := "a", Filters := [{ config := none, groupName := some "g" }] }]

/-- A later route table: a route named `"g"` with a per-route filter, then a
route declaring group `"g"`. -/
def laterTable : List Route :=
  [{ Id := "g", Filters := [{ config := some ⟨1, 1, 1⟩, groupName := none }] },
   { Id := "b", Filters := [{ config := none, groupName := some "g" }] }]

/-- No Stack is stored under two names. -/
def NoAlias (w : World) : Prop :=
  ∀ k k2 p, w.reg.get k = some p → w.reg.get k2 = some p → k = k2

/-- The global Stack is stored under no name. -/
def GlobalApart (w : World) : Prop :=
  ∀ k g, w.reg.global = some g → w.reg.get k ≠ some g

/-- Consequences of `Live` read through `get`: no nil pointer, no Stack under
two names, the global Stack under none. -/
def Sound (w : World) : Prop := Valid w ∧ NoAlias w ∧ GlobalApart w

/-- The history of `w` continues the history of `w0`, and every event added
since satisfies `Q`. -/
def Since (w0 w : World) (Q : Event → Prop) : Prop :=
  ∃ t, w.trace = w0.trace ++ t ∧ ∀ e ∈ t, Q e

/-- The name `k` is neither the identifier of a route of the table that carries
a `ConfiguredFilter` nor the `GroupName()` of a `GroupFilter` of the table. -/
def Untouched (k : String) (rs : List Route) : Prop :=
  ∀ r ∈ rs, ∀ f ∈ r.Filters, (f.config.isSome = true → r.Id ≠ k) ∧ f.groupName ≠ some k

instance (k : String) (rs : List Route) : Decidable (Untouched k rs) := by
  unfold Untouched; infer_instance

/-- A new registry with a configuration for group `"g"`. -/
def groupedStart : World := NewRegistry ⟨5, 5, 5⟩ (some [("g", ⟨3, 4, 5⟩)])

/-- A route table whose only route carries no scheduler filter. -/
def plainTable : List Route :=
  [{ Id := "p", Filters := [{ config := none, groupName := none }] }]

/-! ## Basic facts about the map and the heap -/

theorem lookup_mem {α : Type} (name : String) (v : α) :
    ∀ m : List (String × α), lookup name m = some v → (name, v) ∈ m := by
  intro m
  induction m with
  | nil => intro h; simp [lookup] at h
  | cons e rest ih =>
    obtain ⟨k, x⟩ := e
    intro h
    by_cases hk : k = name
    · simp [lookup, hk] at h
      simp [hk, h]
    · simp [lookup, hk] at h
      exact List.mem_cons_of_mem _ (ih h)

theorem lookup_insert_same {α : Type} (name : String) (v : α) :
    ∀ m : List (String × α), lookup name (insert name v m) = some v := by
  intro m
  induction m with
  | nil => simp [insert, lookup]
  | cons e rest ih =>
    obtain ⟨k, x⟩ := e
    by_cases hk : k = name
    · simp [insert, lookup, hk]
    · simp [insert, lookup, hk, ih]

theorem lookup_insert_other {α : Type} (name other : String) (v : α) (h : other ≠ name) :
    ∀ m : List (String × α), lookup other (insert name v m) = lookup other m := by
  intro m
  induction m with
  | nil => simp [insert, lookup, Ne.symm h]
  | cons e rest ih =>
    obtain ⟨k, x⟩ := e
    by_cases hk : k = name
    · subst hk
      simp [insert, lookup, Ne.symm h]
    · by_cases hko : k = other
      · subst hko
        simp [insert, lookup, hk]
      · simp [insert, lookup, hk, hko, ih]

theorem mem_insert {α : Type} (name : String) (v : α) (e : String × α) :
    ∀ m : List (String × α), e ∈ insert name v m → e = (name, v) ∨ e ∈ m := by
  intro m
  induction m with
  | nil => intro h; simpa [insert] using h
  | cons d rest ih =>
    obtain ⟨k, x⟩ := d
    intro h
    by_cases hk : k = name
    · simp [insert, hk] at h
      rcases h with h | h
      · exact Or.inl h
      · exact Or.inr (List.mem_cons_of_mem _ h)
    · simp [insert, hk] at h
      rcases h with h | h
      · exact Or.inr (by simp [h])
      · rcases ih h with h2 | h2
        · exact Or.inl h2
        · exact Or.inr (List.mem_cons_of_mem _ h2)

theorem boundTo_append_some (i j p : Nat) (t2 : List Event) (h : boundTo i j t2 = some p) :
    ∀ t1 : List Event, boundTo i j (t1 ++ t2) = some p := by
  intro t1
  induction t1 with
  | nil => simpa using h
  | cons e rest ih => simp [boundTo, ih]

theorem boundTo_append_none (i j : Nat) (t2 : List Event) (h : boundTo i j t2 = none) :
    ∀ t1 : List Event, boundTo i j (t1 ++ t2) = boundTo i j t1 := by
  intro t1
  induction t1 with
  | nil => simpa [boundTo] using h
  | cons e rest ih => simp [boundTo, ih]

theorem boundTo_snoc_bound (i j p : Nat) (t : List Event) :
    boundTo i j (t ++ [Event.bound i j p]) = some p :=
  boundTo_append_some i j p _ (by simp [boundTo]) t

theorem getElem?_of_lt_heap (w : World) (p : Nat) (h : p < w.heap.length) :
    ∃ s, w.heap[p]? = some s :=
  ⟨w.heap[p], List.getElem?_eq_getElem h⟩

theorem lt_heap_of_getElem? (w : World) (p : Nat) (s : Stack) (h : w.heap[p]? = some s) :
    p < w.heap.length := by
  rcases Nat.lt_or_ge p w.heap.length with h1 | h1
  · exact h1
  · rw [List.getElem?_eq_none h1] at h; cases h

theorem stored_lt (w : World) (hv : StoredValid w) (k : String) (p : Nat)
    (h : w.reg.get k = some p) : p < w.heap.length :=
  hv (k, p) (lookup_mem k p _ h)

/-! ## What the two branches do -/

theorem configured_absent (w : World) (i j : Nat) (id : String) (c : Config)
    (h : w.reg.get id = none) :
    Do.configured i j id c w = some (createdWorld w i j id c) := by
  simp [Do.configured, h, newStack, SetStack, Registry.set, createdWorld]

theorem configured_same (w : World) (i j : Nat) (id : String) (c : Config) (p : Nat) (s : Stack)
    (h : w.reg.get id = some p) (hs : w.heap[p]? = some s) (hc : c = s.config) :
    Do.configured i j id c w = some (keptWorld w i j p) := by
  simp [Do.configured, h, hs, hc, SetStack, keptWorld]

theorem configured_changed (w : World) (i j : Nat) (id : String) (c : Config) (p : Nat)
    (s : Stack) (h : w.reg.get id = some p) (hs : w.heap[p]? = some s) (hc : c ≠ s.config)
    (ho : s.closed = false) :
    Do.configured i j id c w = some (replacedWorld w i j id c p s) := by
  simp only [Do.configured, h, hs, Stack.close, newStack]
  rw [if_pos hc]
  simp [ho, SetStack, Registry.set, replacedWorld]

/-- Closing a closed Stack fails, and so does the per-route branch when it has
to replace a Stack that is already closed. -/
theorem configured_changed_closed (w : World) (i j : Nat) (id : String) (c : Config) (p : Nat)
    (s : Stack) (h : w.reg.get id = some p) (hs : w.heap[p]? = some s) (hc : c ≠ s.config)
    (ho : s.closed = true) :
    Do.configured i j id c w = none := by
  simp only [Do.configured, h, hs, Stack.close, newStack]
  rw [if_pos hc]
  simp [ho]

theorem open_obj (w : World) (p : Nat) (h : isOpen w p = true) :
    ∃ s, w.heap[p]? = some s ∧ s.closed = false := by
  unfold isOpen at h
  cases hs : w.heap[p]? with
  | none => simp [hs] at h
  | some s => exact ⟨s, rfl, by simpa [hs] using h⟩

theorem group_absent (w : World) (i j : Nat) (n : String) (h : w.reg.get n = none) :
    Do.group i j n w = createdWorld w i j n (w.reg.groupConfigAt n) := by
  simp [Do.group, h, newStack, SetStack, Registry.set, createdWorld]

theorem group_present (w : World) (i j : Nat) (n : String) (p : Nat)
    (h : w.reg.get n = some p) : Do.group i j n w = keptWorld w i j p := by
  simp [Do.group, h, SetStack, keptWorld]

/-- The three outcomes of the per-route branch when the Stack stored under the
route identifier, if there is one, is open. -/
theorem configured_cases (w : World) (i j : Nat) (id : String) (c : Config)
    (hopen : ∀ p, w.reg.get id = some p → isOpen w p = true) :
    (w.reg.get id = none ∧ Do.configured i j id c w = some (createdWorld w i j id c)) ∨
    (∃ p s, w.reg.get id = some p ∧ w.heap[p]? = some s ∧ c = s.config ∧
      Do.configured i j id c w = some (keptWorld w i j p)) ∨
    (∃ p s, w.reg.get id = some p ∧ w.heap[p]? = some s ∧ c ≠ s.config ∧
      Do.configured i j id c w = some (replacedWorld w i j id c p s)) := by
  cases hget : w.reg.get id with
  | none => exact Or.inl ⟨rfl, configured_absent w i j id c hget⟩
  | some p =>
    obtain ⟨s, hs, ho⟩ := open_obj w p (hopen p hget)
    by_cases hc : c = s.config
    · exact Or.inr (Or.inl ⟨p, s, rfl, hs, hc, configured_same w i j id c p s hget hs hc⟩)
    · exact Or.inr (Or.inr ⟨p, s, rfl, hs, hc,
        configured_changed w i j id c p s hget hs hc ho⟩)

/-- The two outcomes of the group branch. -/
theorem group_cases (w : World) (i j : Nat) (n : String) :
    (w.reg.get n = none ∧ Do.group i j n w = createdWorld w i j n (w.reg.groupConfigAt n)) ∨
    (∃ p, w.reg.get n = some p ∧ Do.group i j n w = keptWorld w i j p) := by
  cases hget : w.reg.get n with
  | none => exact Or.inl ⟨rfl, group_absent w i j n hget⟩
  | some p => exact Or.inr ⟨p, rfl, group_present w i j n p hget⟩

/-! ## Lifting a state property through the loops of `Do` -/

theorem filter_lift (P : World → Prop)
    (hc : ∀ w i j id c, P w → ∃ w2, Do.configured i j id c w = some w2 ∧ P w2)
    (hg : ∀ w i j n, P w → P (Do.group i j n w))
    (i j : Nat) (id : String) (f : Filter) (st : World × Bool) (h : P st.1) :
    ∃ st2, Do.filter i j id f st = some st2 ∧ P st2.1 := by
  obtain ⟨fc, fg⟩ := f
  cases fc with
  | none =>
    cases fg with
    | none => exact ⟨st, by simp [Do.filter], h⟩
    | some n => exact ⟨(Do.group i j n st.1, true), by simp [Do.filter], hg _ _ _ _ h⟩
  | some c =>
    obtain ⟨w2, h2, hp2⟩ := hc st.1 i j id c h
    cases fg with
    | none => exact ⟨(w2, true), by simp [Do.filter, h2], hp2⟩
    | some n =>
      exact ⟨(Do.group i j n w2, true), by simp [Do.filter, h2], hg _ _ _ _ hp2⟩

theorem filters_lift (P : World → Prop)
    (hc : ∀ w i j id c, P w → ∃ w2, Do.configured i j id c w = some w2 ∧ P w2)
    (hg : ∀ w i j n, P w → P (Do.group i j n w))
    (i : Nat) (id : String) :
    ∀ (fs : List Filter) (j : Nat) (st : World × Bool), P st.1 →
      ∃ st2, Do.filters i id j fs st = some st2 ∧ P st2.1 := by
  intro fs
  induction fs with
  | nil => intro j st h; exact ⟨st, by simp [Do.filters], h⟩
  | cons f rest ih =>
    intro j st h
    obtain ⟨st1, h1, hp1⟩ := filter_lift P hc hg i j id f st h
    obtain ⟨st2, h2, hp2⟩ := ih (j + 1) st1 hp1
    exact ⟨st2, by simp [Do.filters, h1, h2], hp2⟩

theorem route_lift (P : World → Prop)
    (hc : ∀ w i j id c, P w → ∃ w2, Do.configured i j id c w = some w2 ∧ P w2)
    (hg : ∀ w i j n, P w → P (Do.group i j n w))
    (hl : ∀ w i, P w → P { w with trace := w.trace ++ [Event.logged i] })
    (i : Nat) (ri : Route) (st : World × List (Option Route)) (h : P st.1) :
    ∃ st2, Do.route i ri st = some st2 ∧ P st2.1 ∧ st2.2 = st.2.set i (some ri) := by
  obtain ⟨⟨w2, found⟩, h2, hp2⟩ := filters_lift P hc hg i ri.Id ri.Filters 0 (st.1, false) h
  cases found with
  | true => exact ⟨(w2, st.2.set i (some ri)), by simp [Do.route, h2], hp2, rfl⟩
  | false =>
    exact ⟨({ w2 with trace := w2.trace ++ [Event.logged i] }, st.2.set i (some ri)),
      by simp [Do.route, h2], hl _ _ hp2, rfl⟩

theorem routes_lift (P : World → Prop)
    (hc : ∀ w i j id c, P w → ∃ w2, Do.configured i j id c w = some w2 ∧ P w2)
    (hg : ∀ w i j n, P w → P (Do.group i j n w))
    (hl : ∀ w i, P w → P { w with trace := w.trace ++ [Event.logged i] }) :
    ∀ (rs : List Route) (i : Nat) (st : World × List (Option Route)), P st.1 →
      ∃ st2, Do.routes i rs st = some st2 ∧ P st2.1 := by
  intro rs
  induction rs with
  | nil => intro i st h; exact ⟨st, by simp [Do.routes], h⟩
  | cons ri rest ih =>
    intro i st h
    obtain ⟨st1, h1, hp1, _⟩ := route_lift P hc hg hl i ri st h
    obtain ⟨st2, h2, hp2⟩ := ih (i + 1) st1 hp1
    exact ⟨st2, by simp [Do.routes, h1, h2], hp2⟩

/-- A property of states that every branch of `Do` preserves, and under which
the per-route branch returns, makes `Do` return and is preserved by it. -/
theorem Do_lift (P : World → Prop)
    (hc : ∀ w i j id c, P w → ∃ w2, Do.configured i j id c w = some w2 ∧ P w2)
    (hg : ∀ w i j n, P w → P (Do.group i j n w))
    (hl : ∀ w i, P w → P { w with trace := w.trace ++ [Event.logged i] })
    (w : World) (rs : List Route) (h : P w) :
    ∃ w2 rr, Registry.Do w rs = some (w2, rr) ∧ P w2 := by
  obtain ⟨⟨w2, rr⟩, h2, hp2⟩ :=
    routes_lift P hc hg hl rs 0 (w, List.replicate rs.length none) h
  exact ⟨w2, rr, h2, hp2⟩

/-! ## No nil entry is ever stored -/

theorem storedValid_created (w : World) (hv : StoredValid w) (i j : Nat) (name : String)
    (c : Config) : StoredValid (createdWorld w i j name c) := by
  intro e he
  simp only [createdWorld, List.length_append, List.length_singleton]
  rcases mem_insert name w.heap.length e _ he with h | h
  · subst h; simp
  · exact Nat.lt_succ_of_lt (hv e h)

theorem storedValid_kept (w : World) (hv : StoredValid w) (i j p : Nat) :
    StoredValid (keptWorld w i j p) := hv

theorem storedValid_replaced (w : World) (hv : StoredValid w) (i j : Nat) (id : String)
    (c : Config) (p : Nat) (s : Stack) : StoredValid (replacedWorld w i j id c p s) := by
  intro e he
  simp only [replacedWorld, List.length_append, List.length_singleton, List.length_set]
  rcases mem_insert id w.heap.length e _ he with h | h
  · subst h; simp
  · exact Nat.lt_succ_of_lt (hv e h)

/-! ## The returned slice -/

theorem route_snd (i : Nat) (ri : Route) (st st2 : World × List (Option Route))
    (h : Do.route i ri st = some st2) : st2.2 = st.2.set i (some ri) := by
  unfold Do.route at h
  cases hf : Do.filters i ri.Id 0 ri.Filters (st.1, false) with
  | none => simp [hf] at h
  | some r =>
    obtain ⟨w, found⟩ := r
    cases found <;> simp [hf] at h <;> rw [← h]

theorem set_fill (ri : Route) (n : Nat) :
    ∀ pre : List Route,
      (pre.map some ++ List.replicate (n + 1) none).set pre.length (some ri) =
        (pre ++ [ri]).map some ++ List.replicate n none := by
  intro pre
  induction pre with
  | nil => simp [List.replicate_succ]
  | cons a rest ih => simpa using ih

theorem routes_snd :
    ∀ (rs pre : List Route) (w : World) (st2 : World × List (Option Route)),
      Do.routes pre.length rs (w, pre.map some ++ List.replicate rs.length none) = some st2 →
      st2.2 = (pre ++ rs).map some := by
  intro rs
  induction rs with
  | nil =>
    intro pre w st2 h
    simp [Do.routes] at h
    simp [← h]
  | cons ri rest ih =>
    intro pre w st2 h
    unfold Do.routes at h
    simp only [List.length_cons] at h
    cases h1 : Do.route pre.length ri (w, pre.map some ++ List.replicate (rest.length + 1) none) with
    | none => simp [h1] at h
    | some st1 =>
      simp only [h1] at h
      have hs := route_snd _ _ _ _ h1
      rw [set_fill] at hs
      obtain ⟨w1, rr1⟩ := st1
      simp only at hs
      subst hs
      have := ih (pre ++ [ri]) w1 st2 (by simpa using h)
      simpa using this

/-! ## The new registry -/

theorem valid_NewRegistry (global : Config) (groups : Option (List (String × Config))) :
    Valid (NewRegistry global groups) := by
  refine ⟨?_, 0, ?_, ?_⟩
  · intro e he
    simp [NewRegistry, newStack] at he
  · simp [NewRegistry, newStack]
  · simp [NewRegistry, newStack]

/-! ## The invariant of the `Do` passes -/

theorem isOpen_lt (w : World) (p : Nat) (h : isOpen w p = true) : p < w.heap.length := by
  rcases Nat.lt_or_ge p w.heap.length with h1 | h1
  · exact h1
  · simp [isOpen, List.getElem?_eq_none h1] at h

theorem isClosed_lt (w : World) (p : Nat) (h : isClosed w p = true) : p < w.heap.length := by
  rcases Nat.lt_or_ge p w.heap.length with h1 | h1
  · exact h1
  · simp [isClosed, List.getElem?_eq_none h1] at h

theorem not_open_and_closed (w : World) (p : Nat) (ho : isOpen w p = true)
    (hc : isClosed w p = true) : False := by
  unfold isOpen at ho
  unfold isClosed at hc
  cases hs : w.heap[p]? with
  | none => simp [hs] at ho
  | some s => simp [hs] at ho hc; simp [ho] at hc

theorem inv_NewRegistry (global : Config) (groups : Option (List (String × Config))) :
    Inv (NewRegistry global groups) where
  valid := (valid_NewRegistry global groups).1
  alloc := by intro k p h; simp [NewRegistry, newStack] at h
  live := by intro k p h; simp [NewRegistry, newStack, Registry.get, lookup] at h
  dead := by intro k p h; simp [NewRegistry, newStack] at h
  uniq := by intro k k2 p h; simp [NewRegistry, newStack] at h

theorem inv_kept (w : World) (hi : Inv w) (i j p : Nat) : Inv (keptWorld w i j p) where
  valid := hi.valid
  alloc := by
    intro k q h
    simp [keptWorld] at h
    exact hi.alloc k q h
  live := by
    intro k q h
    have := hi.live k q h
    simpa [keptWorld, isOpen] using this
  dead := by
    intro k q h hne
    simp [keptWorld] at h
    have := hi.dead k q h hne
    simpa [keptWorld, isClosed] using this
  uniq := by
    intro k k2 q h1 h2
    simp [keptWorld] at h1 h2
    exact hi.uniq k k2 q h1 h2

theorem inv_logged (w : World) (i : Nat) (hi : Inv w) :
    Inv { w with trace := w.trace ++ [Event.logged i] } where
  valid := hi.valid
  alloc := by
    intro k q h
    simp at h
    exact hi.alloc k q h
  live := by
    intro k q h
    have := hi.live k q h
    simpa [isOpen] using this
  dead := by
    intro k q h hne
    simp at h
    have := hi.dead k q h hne
    simpa [isClosed] using this
  uniq := by
    intro k k2 q h1 h2
    simp at h1 h2
    exact hi.uniq k k2 q h1 h2

theorem mem_created_trace (w : World) (i j : Nat) (name : String) (c : Config) (k : String)
    (q : Nat) (h : Event.stored k q ∈ (createdWorld w i j name c).trace) :
    Event.stored k q ∈ w.trace ∨ (k = name ∧ q = w.heap.length) := by
  simpa [createdWorld] using h

theorem get_created (w : World) (i j : Nat) (name : String) (c : Config) (k : String) :
    (createdWorld w i j name c).reg.get k =
      if k = name then some w.heap.length else w.reg.get k := by
  by_cases hk : k = name
  · subst hk
    simp [createdWorld, Registry.get, lookup_insert_same]
  · simp [createdWorld, Registry.get, lookup_insert_other _ _ _ hk, hk]

theorem inv_created (w : World) (hi : Inv w) (i j : Nat) (name : String) (c : Config)
    (hnone : w.reg.get name = none) : Inv (createdWorld w i j name c) where
  valid := storedValid_created w hi.valid i j name c
  alloc := by
    intro k q h
    simp only [createdWorld, List.length_append, List.length_singleton]
    rcases mem_created_trace w i j name c k q h with h1 | ⟨_, h1⟩
    · exact Nat.lt_succ_of_lt (hi.alloc k q h1)
    · omega
  live := by
    intro k q h
    rw [get_created] at h
    by_cases hk : k = name
    · subst hk
      simp at h
      subst h
      simp [createdWorld, isOpen]
    · simp [hk] at h
      obtain ⟨h1, h2⟩ := hi.live k q h
      have hlt := isOpen_lt w q h2
      refine ⟨by simp [createdWorld, h1], ?_⟩
      simpa [createdWorld, isOpen, List.getElem?_append, hlt] using h2
  dead := by
    intro k q h hne
    rw [get_created] at hne
    rcases mem_created_trace w i j name c k q h with h1 | ⟨hk, hq⟩
    · have hcl : isClosed w q = true := by
        apply hi.dead k q h1
        by_cases hk : k = name
        · subst hk; rw [hnone]; simp
        · simpa [hk] using hne
      have hlt := isClosed_lt w q hcl
      simpa [createdWorld, isClosed, List.getElem?_append, hlt] using hcl
    · subst hk; subst hq
      simp at hne
  uniq := by
    intro k k2 q h1 h2
    rcases mem_created_trace w i j name c k q h1 with a | ⟨a1, a2⟩
    · rcases mem_created_trace w i j name c k2 q h2 with b | ⟨b1, b2⟩
      · exact hi.uniq k k2 q a b
      · have := hi.alloc k q a; omega
    · rcases mem_created_trace w i j name c k2 q h2 with b | ⟨b1, b2⟩
      · have := hi.alloc k2 q b; omega
      · rw [a1, b1]

theorem mem_replaced_trace (w : World) (i j : Nat) (id : String) (c : Config) (p : Nat)
    (s : Stack) (k : String) (q : Nat)
    (h : Event.stored k q ∈ (replacedWorld w i j id c p s).trace) :
    Event.stored k q ∈ w.trace ∨ (k = id ∧ q = w.heap.length) := by
  simpa [replacedWorld] using h

theorem get_replaced (w : World) (i j : Nat) (id : String) (c : Config) (p : Nat) (s : Stack)
    (k : String) :
    (replacedWorld w i j id c p s).reg.get k =
      if k = id then some w.heap.length else w.reg.get k := by
  by_cases hk : k = id
  · subst hk
    simp [replacedWorld, Registry.get, lookup_insert_same]
  · simp [replacedWorld, Registry.get, lookup_insert_other _ _ _ hk, hk]

theorem isClosed_replaced (w : World) (i j : Nat) (id : String) (c : Config) (p : Nat)
    (s : Stack) (q : Nat) (h : isClosed w q = true) :
    isClosed (replacedWorld w i j id c p s) q = true := by
  have hlt := isClosed_lt w q h
  by_cases hq : p = q
  · subst hq
    simp [replacedWorld, isClosed, List.getElem?_append, hlt, List.getElem?_set]
  · simpa [replacedWorld, isClosed, List.getElem?_append, hlt, List.getElem?_set, hq] using h

theorem inv_replaced (w : World) (hi : Inv w) (i j : Nat) (id : String) (c : Config) (p : Nat)
    (s : Stack) (hget : w.reg.get id = some p) :
    Inv (replacedWorld w i j id c p s) where
  valid := storedValid_replaced w hi.valid i j id c p s
  alloc := by
    intro k q h
    simp only [replacedWorld, List.length_append, List.length_singleton, List.length_set]
    rcases mem_replaced_trace w i j id c p s k q h with h1 | ⟨_, h1⟩
    · exact Nat.lt_succ_of_lt (hi.alloc k q h1)
    · omega
  live := by
    intro k q h
    rw [get_replaced] at h
    by_cases hk : k = id
    · subst hk
      simp at h
      subst h
      simp [replacedWorld, isOpen]
    · simp [hk] at h
      obtain ⟨h1, h2⟩ := hi.live k q h
      have hlt := isOpen_lt w q h2
      have hpq : p ≠ q := by
        intro hpq
        subst hpq
        exact hk (hi.uniq k id p h1 (hi.live id p hget).1)
      refine ⟨by simp [replacedWorld, h1], ?_⟩
      simpa [replacedWorld, isOpen, List.getElem?_append, hlt, List.getElem?_set, hpq] using h2
  dead := by
    intro k q h hne
    rw [get_replaced] at hne
    rcases mem_replaced_trace w i j id c p s k q h with h1 | ⟨hk, hq⟩
    · by_cases hpq : p = q
      · subst hpq
        have hlt := stored_lt w hi.valid id p hget
        simp [replacedWorld, isClosed, List.getElem?_append, hlt, List.getElem?_set]
      · apply isClosed_replaced
        apply hi.dead k q h1
        by_cases hk : k = id
        · subst hk
          rw [hget]
          simpa using hpq
        · simpa [hk] using hne
    · subst hk; subst hq
      simp at hne
  uniq := by
    intro k k2 q h1 h2
    rcases mem_replaced_trace w i j id c p s k q h1 with a | ⟨a1, a2⟩
    · rcases mem_replaced_trace w i j id c p s k2 q h2 with b | ⟨b1, b2⟩
      · exact hi.uniq k k2 q a b
      · have := hi.alloc k q a; omega
    · rcases mem_replaced_trace w i j id c p s k2 q h2 with b | ⟨b1, b2⟩
      · have := hi.alloc k2 q b; omega
      · rw [a1, b1]

theorem inv_configured (w : World) (i j : Nat) (id : String) (c : Config) (hi : Inv w) :
    ∃ w2, Do.configured i j id c w = some w2 ∧ Inv w2 := by
  rcases configured_cases w i j id c (fun p hp => (hi.live id p hp).2) with
    ⟨hn, h⟩ | ⟨p, s, _, _, _, h⟩ | ⟨p, s, hget, _, _, h⟩
  · exact ⟨_, h, inv_created w hi i j id c hn⟩
  · exact ⟨_, h, inv_kept w hi i j p⟩
  · exact ⟨_, h, inv_replaced w hi i j id c p s hget⟩

theorem inv_group (w : World) (i j : Nat) (n : String) (hi : Inv w) :
    Inv (Do.group i j n w) := by
  rcases group_cases w i j n with ⟨hn, h⟩ | ⟨p, _, h⟩
  · rw [h]; exact inv_created w hi i j n _ hn
  · rw [h]; exact inv_kept w hi i j p

theorem inv_Do (w : World) (rs : List Route) (hi : Inv w) :
    ∃ w2 rr, Registry.Do w rs = some (w2, rr) ∧ Inv w2 :=
  Do_lift Inv inv_configured inv_group inv_logged w rs hi

theorem inv_of_reachDo (w : World) (h : ReachDo w) : Inv w := by
  induction h with
  | init global groups => exact inv_NewRegistry global groups
  | pass w w2 rs rr _ hdo ih =>
    obtain ⟨w3, rr3, h3, hv3⟩ := inv_Do w rs ih
    rw [h3] at hdo
    cases hdo
    exact hv3

/-! ## The state invariant of the `Do` passes -/

theorem names_insert {α : Type} (name : String) (v : α) :
    ∀ m : List (String × α), (m.map Prod.fst).Nodup →
      ((insert name v m).map Prod.fst).Nodup := by
  intro m
  induction m with
  | nil => intro _; simp [insert]
  | cons d rest ih =>
    obtain ⟨k, x⟩ := d
    intro h
    rw [List.map_cons, List.nodup_cons] at h
    by_cases hk : k = name
    · simp only [insert, hk, if_true, List.map_cons, List.nodup_cons]
      exact ⟨by simpa [hk] using h.1, h.2⟩
    · simp only [insert, hk, if_false, List.map_cons, List.nodup_cons]
      refine ⟨?_, ih h.2⟩
      intro hmem
      obtain ⟨e, he, hek⟩ := List.mem_map.mp hmem
      rcases mem_insert name v e rest he with h1 | h1
      · subst h1; exact hk hek.symm
      · exact h.1 (List.mem_map.mpr ⟨e, h1, hek⟩)

theorem addrs_insert (name : String) (v : Nat) :
    ∀ m : List (String × Nat), (∀ e ∈ m, e.2 ≠ v) → (m.map Prod.snd).Nodup →
      ((insert name v m).map Prod.snd).Nodup := by
  intro m
  induction m with
  | nil => intro _ _; simp [insert]
  | cons d rest ih =>
    obtain ⟨k, x⟩ := d
    intro hv h
    rw [List.map_cons, List.nodup_cons] at h
    have hrest : ∀ e ∈ rest, e.2 ≠ v := fun e he => hv e (List.mem_cons_of_mem _ he)
    by_cases hk : k = name
    · simp only [insert, hk, if_true, List.map_cons, List.nodup_cons]
      refine ⟨?_, h.2⟩
      intro hmem
      obtain ⟨e, he, hev⟩ := List.mem_map.mp hmem
      exact hrest e he hev
    · simp only [insert, hk, if_false, List.map_cons, List.nodup_cons]
      refine ⟨?_, ih hrest h.2⟩
      intro hmem
      obtain ⟨e, he, hex⟩ := List.mem_map.mp hmem
      rcases mem_insert name v e rest he with h1 | h1
      · subst h1
        exact hv (k, x) (by simp) hex.symm
      · exact h.1 (List.mem_map.mpr ⟨e, h1, hex⟩)

theorem mem_insert_ne {α : Type} (name : String) (v : α) (e : String × α) :
    ∀ m : List (String × α), (m.map Prod.fst).Nodup → e ∈ insert name v m →
      e = (name, v) ∨ (e ∈ m ∧ e.1 ≠ name) := by
  intro m
  induction m with
  | nil => intro _ h; exact Or.inl (by simpa [insert] using h)
  | cons d rest ih =>
    obtain ⟨k, x⟩ := d
    intro hn h
    rw [List.map_cons, List.nodup_cons] at hn
    by_cases hk : k = name
    · simp only [insert, hk, if_true, List.mem_cons] at h
      rcases h with h | h
      · exact Or.inl h
      · refine Or.inr ⟨List.mem_cons_of_mem _ h, ?_⟩
        intro he
        exact hn.1 (List.mem_map.mpr ⟨e, h, by rw [he, hk]⟩)
    · simp only [insert, hk, if_false, List.mem_cons] at h
      rcases h with h | h
      · exact Or.inr ⟨by rw [h]; simp, by rw [h]; exact hk⟩
      · rcases ih hn.2 h with h2 | ⟨h2, h3⟩
        · exact Or.inl h2
        · exact Or.inr ⟨List.mem_cons_of_mem _ h2, h3⟩

theorem live_open (w : World) (hl : Live w) (k : String) (p : Nat)
    (h : w.reg.get k = some p) : isOpen w p = true :=
  hl.allOpen (k, p) (lookup_mem k p _ h)

theorem isOpen_created_old (w : World) (i j : Nat) (name : String) (c : Config) (q : Nat)
    (h : isOpen w q = true) : isOpen (createdWorld w i j name c) q = true := by
  have hlt := isOpen_lt w q h
  simpa [createdWorld, isOpen, List.getElem?_append, hlt] using h

theorem isOpen_created_new (w : World) (i j : Nat) (name : String) (c : Config) :
    isOpen (createdWorld w i j name c) w.heap.length = true := by
  simp [createdWorld, isOpen]

theorem isOpen_replaced_old (w : World) (i j : Nat) (id : String) (c : Config) (p0 : Nat)
    (s : Stack) (q : Nat) (h : isOpen w q = true) (hne : p0 ≠ q) :
    isOpen (replacedWorld w i j id c p0 s) q = true := by
  have hlt := isOpen_lt w q h
  simpa [replacedWorld, isOpen, List.getElem?_append, hlt, List.getElem?_set, hne] using h

theorem isOpen_replaced_new (w : World) (i j : Nat) (id : String) (c : Config) (p0 : Nat)
    (s : Stack) : isOpen (replacedWorld w i j id c p0 s) w.heap.length = true := by
  simp [replacedWorld, isOpen]

theorem live_fresh (w : World) (hl : Live w) : ∀ e ∈ w.reg.stackMap, e.2 ≠ w.heap.length := by
  intro e he h
  have := isOpen_lt w e.2 (hl.allOpen e he)
  omega

theorem live_created (w : World) (hl : Live w) (i j : Nat) (name : String) (c : Config) :
    Live (createdWorld w i j name c) where
  names := names_insert name w.heap.length _ hl.names
  addrs := addrs_insert name w.heap.length _ (live_fresh w hl) hl.addrs
  allOpen := by
    intro e he
    rcases mem_insert name w.heap.length e _ he with h | h
    · subst h; exact isOpen_created_new w i j name c
    · exact isOpen_created_old w i j name c e.2 (hl.allOpen e h)
  globalOpen := by
    obtain ⟨g, hg, ho, ha⟩ := hl.globalOpen
    refine ⟨g, hg, isOpen_created_old w i j name c g ho, ?_⟩
    intro e he
    rcases mem_insert name w.heap.length e _ he with h | h
    · subst h
      have := isOpen_lt w g ho
      simp only
      omega
    · exact ha e h

theorem live_kept (w : World) (hl : Live w) (i j p : Nat) : Live (keptWorld w i j p) where
  names := hl.names
  addrs := hl.addrs
  allOpen := hl.allOpen
  globalOpen := hl.globalOpen

theorem live_logged (w : World) (i : Nat) (hl : Live w) :
    Live { w with trace := w.trace ++ [Event.logged i] } where
  names := hl.names
  addrs := hl.addrs
  allOpen := hl.allOpen
  globalOpen := hl.globalOpen

theorem live_replaced (w : World) (hl : Live w) (i j : Nat) (id : String) (c : Config)
    (p0 : Nat) (s : Stack) (hget : w.reg.get id = some p0) :
    Live (replacedWorld w i j id c p0 s) where
  names := names_insert id w.heap.length _ hl.names
  addrs := addrs_insert id w.heap.length _ (live_fresh w hl) hl.addrs
  allOpen := by
    intro e he
    rcases mem_insert_ne id w.heap.length e _ hl.names he with h | ⟨h, hne⟩
    · subst h; exact isOpen_replaced_new w i j id c p0 s
    · refine isOpen_replaced_old w i j id c p0 s e.2 (hl.allOpen e h) ?_
      intro h0
      have := List.inj_on_of_nodup_map hl.addrs (lookup_mem id p0 _ hget) h h0
      exact hne (by rw [← this])
  globalOpen := by
    obtain ⟨g, hg, ho, ha⟩ := hl.globalOpen
    refine ⟨g, hg, isOpen_replaced_old w i j id c p0 s g ho ?_, ?_⟩
    · exact ha (id, p0) (lookup_mem id p0 _ hget)
    · intro e he
      rcases mem_insert id w.heap.length e _ he with h | h
      · subst h
        have := isOpen_lt w g ho
        simp only
        omega
      · exact ha e h

theorem live_configured (w : World) (i j : Nat) (id : String) (c : Config) (hl : Live w) :
    ∃ w2, Do.configured i j id c w = some w2 ∧ Live w2 := by
  rcases configured_cases w i j id c (live_open w hl id) with
    ⟨_, h⟩ | ⟨p, s, _, _, _, h⟩ | ⟨p, s, hget, _, _, h⟩
  · exact ⟨_, h, live_created w hl i j id c⟩
  · exact ⟨_, h, live_kept w hl i j p⟩
  · exact ⟨_, h, live_replaced w hl i j id c p s hget⟩

theorem live_group (w : World) (i j : Nat) (n : String) (hl : Live w) :
    Live (Do.group i j n w) := by
  rcases group_cases w i j n with ⟨_, h⟩ | ⟨p, _, h⟩
  · rw [h]; exact live_created w hl i j n _
  · rw [h]; exact live_kept w hl i j p

theorem live_NewRegistry (global : Config) (groups : Option (List (String × Config))) :
    Live (NewRegistry global groups) where
  names := by simp [NewRegistry, newStack]
  addrs := by simp [NewRegistry, newStack]
  allOpen := by intro e he; simp [NewRegistry, newStack] at he
  globalOpen := ⟨0, rfl, rfl, by intro e he; simp [NewRegistry, newStack] at he⟩

/-- From a state satisfying the invariant every `Do` pass returns, in a state
satisfying it again. -/
theorem live_Do (w : World) (rs : List Route) (hl : Live w) :
    ∃ w2 rr, Registry.Do w rs = some (w2, rr) ∧ Live w2 :=
  Do_lift Live live_configured live_group live_logged w rs hl

theorem live_of_reachDo (w : World) (h : ReachDo w) : Live w := by
  induction h with
  | init global groups => exact live_NewRegistry global groups
  | pass w w2 rs rr _ hdo ih =>
    obtain ⟨w3, rr3, h3, hv3⟩ := live_Do w rs ih
    rw [h3] at hdo
    cases hdo
    exact hv3

theorem sound_of_live (w : World) (hl : Live w) : Sound w := by
  obtain ⟨g, hg, hgo, hga⟩ := hl.globalOpen
  refine ⟨⟨fun e he => isOpen_lt w e.2 (hl.allOpen e he), g, hg, isOpen_lt w g hgo⟩, ?_, ?_⟩
  · intro k k2 p h1 h2
    have := List.inj_on_of_nodup_map hl.addrs (lookup_mem k p _ h1) (lookup_mem k2 p _ h2) rfl
    exact congrArg Prod.fst this
  · intro k g2 hg2 hget
    rw [hg] at hg2
    cases hg2
    exact hga (k, g) (lookup_mem k g _ hget) rfl

/-! ## Closing -/

theorem onlyClosed_refl (w : World) : OnlyClosed w w :=
  ⟨rfl, rfl, rfl, fun _ h => h⟩

theorem onlyClosed_trans (w1 w2 w3 : World) (h12 : OnlyClosed w1 w2) (h23 : OnlyClosed w2 w3) :
    OnlyClosed w1 w3 :=
  ⟨h23.1.trans h12.1, h23.2.1.trans h12.2.1, h23.2.2.1.trans h12.2.2.1,
    fun q h => h23.2.2.2 q (h12.2.2.2 q h)⟩

/-- Closing an open Stack returns, closes it, and leaves every other object as
it was. -/
theorem close_spec (w : World) (p : Nat) (ho : isOpen w p = true) :
    ∃ w2, Stack.close p w = some w2 ∧ OnlyClosed w w2 ∧ isClosed w2 p = true ∧
      ∀ q, q ≠ p → w2.heap[q]? = w.heap[q]? := by
  obtain ⟨s, hs, hcl⟩ := open_obj w p ho
  have hp : p < w.heap.length := isOpen_lt w p ho
  refine ⟨{ w with
      heap := w.heap.set p { s with closed := true }
      trace := w.trace ++ [Event.closed p] }, by simp [Stack.close, hs, hcl],
    ⟨rfl, by simp, ?_, ?_⟩, ?_, ?_⟩
  · apply List.ext_getElem?
    intro n
    by_cases hn : p = n
    · subst hn
      have hget : w.heap[p] = s := by
        have := List.getElem?_eq_getElem hp
        rw [hs] at this
        exact (Option.some.inj this).symm
      simp [List.getElem?_map, List.getElem?_set, hp, hget]
    · simp [List.getElem?_map, List.getElem?_set, hn]
  · intro q hq
    by_cases hn : p = q
    · subst hn
      simp [isClosed, List.getElem?_set, hp]
    · simpa [isClosed, List.getElem?_set, hn] using hq
  · simp [isClosed, List.getElem?_set, hp]
  · intro q hq
    simp [List.getElem?_set, Ne.symm hq]

/-- Closing a closed Stack fails. -/
theorem close_closed (w : World) (p : Nat) (hc : isClosed w p = true) :
    Stack.close p w = none := by
  unfold isClosed at hc
  cases hs : w.heap[p]? with
  | none => simp [Stack.close, hs]
  | some s =>
    simp [hs] at hc
    simp [Stack.close, hs, hc]

theorem closeAll_spec :
    ∀ (m : List (String × Nat)) (w : World), (∀ e ∈ m, isOpen w e.2 = true) →
      (m.map Prod.snd).Nodup →
      ∃ w2, closeAll m w = some w2 ∧ OnlyClosed w w2 ∧
        (∀ e ∈ m, isClosed w2 e.2 = true) ∧
        ∀ q, (∀ e ∈ m, e.2 ≠ q) → w2.heap[q]? = w.heap[q]? := by
  intro m
  induction m with
  | nil => intro w _ _; exact ⟨w, rfl, onlyClosed_refl w, by simp, fun _ _ => rfl⟩
  | cons d rest ih =>
    intro w hv hn
    obtain ⟨k, p⟩ := d
    rw [List.map_cons, List.nodup_cons] at hn
    obtain ⟨w1, h1, hc1, hp1, hf1⟩ := close_spec w p (hv (k, p) (by simp))
    have hne : ∀ e ∈ rest, e.2 ≠ p := by
      intro e he h
      exact hn.1 (List.mem_map.mpr ⟨e, he, h⟩)
    obtain ⟨w2, h2, hc2, hp2, hf2⟩ := ih w1 (by
      intro e he
      have := hv e (List.mem_cons_of_mem _ he)
      simpa [isOpen, hf1 e.2 (hne e he)] using this) hn.2
    refine ⟨w2, by simp [closeAll, h1, h2], onlyClosed_trans _ _ _ hc1 hc2, ?_, ?_⟩
    · intro e he
      rcases List.mem_cons.mp he with h | h
      · subst h; exact hc2.2.2.2 p hp1
      · exact hp2 e h
    · intro q hq
      rw [hf2 q (fun e he => hq e (List.mem_cons_of_mem _ he))]
      exact hf1 q (Ne.symm (hq (k, p) (by simp)))

/-- On a state satisfying the invariant `Close` returns; it only closes, and
afterwards every stored Stack and the global Stack are closed. -/
theorem Close_spec (w : World) (hl : Live w) :
    ∃ w2, Registry.Close w = some w2 ∧ OnlyClosed w w2 ∧
      (∀ e ∈ w.reg.stackMap, isClosed w2 e.2 = true) ∧
      ∃ g, w.reg.global = some g ∧ isClosed w2 g = true := by
  obtain ⟨g, hg, hgo, hga⟩ := hl.globalOpen
  obtain ⟨w1, h1, hc1, hp1, hf1⟩ := closeAll_spec w.reg.stackMap w hl.allOpen hl.addrs
  have hgo1 : isOpen w1 g = true := by
    simpa [isOpen, hf1 g hga] using hgo
  obtain ⟨w2, h2, hc2, hp2, _⟩ := close_spec w1 g hgo1
  refine ⟨w2, ?_, onlyClosed_trans _ _ _ hc1 hc2, ?_, g, hg, hp2⟩
  · simp [Registry.Close, h1, hc1.1, hg, h2]
  · intro e he
    exact hc2.2.2.2 _ (hp1 e he)

/-! ## The per-route branch -/

/-- C1 (idempotent resolution). When the route identifier already has a stored
Stack at address `p` whose config equals the filter's `Config()`, the per-route
branch of `Do` only calls `SetStack` with `p`: heap and registry are untouched
and the history grows by that single call (nothing created, closed or stored).
The same holds for a whole `Do` pass over a table made of that one filter. -/
theorem C1_idempotent_resolution (w : World) (i j : Nat) (id : String) (c : Config)
    (p : Nat) (s : Stack) (hget : w.reg.get id = some p) (hs : w.heap[p]? = some s)
    (hc : s.config = c) :
    Do.configured i j id c w = some { w with trace := w.trace ++ [Event.bound i j p] } ∧
    Registry.Do w [⟨id, [⟨some c, none⟩]⟩] =
      some ({ w with trace := w.trace ++ [Event.bound 0 0 p] }, [some ⟨id, [⟨some c, none⟩]⟩]) := by
  have h1 : ∀ a b, Do.configured a b id c w =
      some { w with trace := w.trace ++ [Event.bound a b p] } := by
    intro a b
    simp [Do.configured, hget, hs, hc, SetStack]
  refine ⟨h1 i j, ?_⟩
  simp [Registry.Do, Do.routes, Do.route, Do.filters, Do.filter, h1]

/-- C2 (replacement). When the route identifier has a stored Stack at address
`p` that is open (as every stored Stack is until `Registry.Close`) and whose
config differs from the filter's `Config()` in at least one field, the
per-route branch closes `p`, allocates a new open Stack with the new config at
a different address, stores that address under the identifier and passes it to
`SetStack`, in this order and doing nothing else. -/
theorem C2_replacement (w : World) (i j : Nat) (id : String) (c : Config)
    (p : Nat) (s : Stack) (hget : w.reg.get id = some p) (hs : w.heap[p]? = some s)
    (ho : s.closed = false)
    (hne : c.MaxConcurrency ≠ s.config.MaxConcurrency ∨ c.MaxStackSize ≠ s.config.MaxStackSize ∨
      c.Timeout ≠ s.config.Timeout) :
    ∃ w2, Do.configured i j id c w = some w2 ∧
      w2.trace = w.trace ++ [Event.closed p, Event.created w.heap.length c,
        Event.stored id w.heap.length, Event.bound i j w.heap.length] ∧
      w.heap.length ≠ p ∧
      w2.heap[p]? = some { config := s.config, closed := true } ∧
      w2.heap[w.heap.length]? = some { config := c, closed := false } ∧
      w2.reg.get id = some w.heap.length ∧
      boundTo i j w2.trace = some w.heap.length := by
  have hlt : p < w.heap.length := by
    rcases Nat.lt_or_ge p w.heap.length with h | h
    · exact h
    · rw [List.getElem?_eq_none h] at hs; cases hs
  have hcfg : c ≠ s.config := by
    intro h
    subst h
    simp at hne
  have hres : Do.configured i j id c w = some
      { heap := w.heap.set p { config := s.config, closed := true } ++ [{ config := c, closed := false }]
        reg := { w.reg with stackMap := insert id w.heap.length w.reg.stackMap }
        trace := w.trace ++ [Event.closed p, Event.created w.heap.length c,
          Event.stored id w.heap.length, Event.bound i j w.heap.length] } := by
    simp only [Do.configured, hget, hs, Stack.close, newStack]
    rw [if_pos hcfg]
    simp [ho, SetStack, Registry.set]
  refine ⟨_, hres, rfl, ?_, ?_, ?_, ?_, ?_⟩
  · omega
  · simp [List.getElem?_append, hlt]
  · simp
  · simp [Registry.get, lookup_insert_same]
  · have h := boundTo_append_some i j w.heap.length
      [Event.closed p, Event.created w.heap.length c, Event.stored id w.heap.length,
        Event.bound i j w.heap.length] (by simp [boundTo]) w.trace
    simpa using h

/-- C8 (a route Stack carries the filter's config). On a state in which the
Stack stored under the route identifier, if there is one, is open, the per-route
branch returns, the last thing it does is call `SetStack` on the filter with an
address `q`, the Stack at `q` has the filter's `Config()` in all three fields,
and `q` is what is stored under the route identifier. -/
theorem C8_route_stack_config (w : World) (i j : Nat) (id : String) (c : Config)
    (hopen : ∀ p, w.reg.get id = some p → isOpen w p = true) :
    ∃ w2 q obj, Do.configured i j id c w = some w2 ∧
      w2.trace.getLast? = some (Event.bound i j q) ∧
      w2.heap[q]? = some obj ∧
      obj.config.MaxConcurrency = c.MaxConcurrency ∧
      obj.config.MaxStackSize = c.MaxStackSize ∧
      obj.config.Timeout = c.Timeout ∧
      w2.reg.get id = some q := by
  rcases configured_cases w i j id c hopen with ⟨_, h⟩ | ⟨p, s, hget, hs, hc, h⟩ |
      ⟨p, s, _, hs, _, h⟩
  · refine ⟨_, w.heap.length, ⟨c, false⟩, h, ?_, ?_, rfl, rfl, rfl, ?_⟩
    · simp [createdWorld, List.getLast?_append]
    · simp [createdWorld]
    · simp [createdWorld, Registry.get, lookup_insert_same]
  · refine ⟨_, p, s, h, ?_, ?_, ?_, ?_, ?_, ?_⟩
    · simp [keptWorld, List.getLast?_append]
    · simpa [keptWorld] using hs
    · rw [hc]
    · rw [hc]
    · rw [hc]
    · simpa [keptWorld] using hget
  · refine ⟨_, w.heap.length, ⟨c, false⟩, h, ?_, ?_, rfl, rfl, rfl, ?_⟩
    · simp [replacedWorld, List.getLast?_append]
    · simp [replacedWorld]
    · simp [replacedWorld, Registry.get, lookup_insert_same]

/-- C10 (the route table is passed through). Whenever `Do` returns, the
returned slice has the length of the input and holds at every index the route
the input holds there; and from every state reachable from `NewRegistry` by `Do`
passes `Do` does return, with exactly the routes of the input in their order. -/
theorem C10_routes_passed_through (w : World) (rs : List Route) :
    (∀ w2 rr, Registry.Do w rs = some (w2, rr) →
      rr.length = rs.length ∧ ∀ k, k < rs.length → rr[k]? = (rs[k]?).map some) ∧
    (ReachDo w → ∃ w2, Registry.Do w rs = some (w2, rs.map some)) := by
  have key : ∀ w2 rr, Registry.Do w rs = some (w2, rr) → rr = rs.map some := by
    intro w2 rr h
    have := routes_snd rs [] w (w2, rr) (by simpa [Registry.Do] using h)
    simpa using this
  refine ⟨?_, ?_⟩
  · intro w2 rr h
    rw [key w2 rr h]
    refine ⟨by simp, ?_⟩
    intro k _
    simp
  · intro hr
    obtain ⟨w2, rr, h, _⟩ := live_Do w rs (live_of_reachDo w hr)
    exact ⟨w2, by rw [← key w2 rr h]; exact h⟩

/-- C9 (`Close` closes every owned Stack). In every state reachable from
`NewRegistry` by `Do` passes, `Close` returns; afterwards every address stored in the map and the global address are closed, the registry (the
stored names and addresses, the global pointer) is the same, and the heap holds
the same objects with the same configs. -/
theorem C9_close_closes_all (w : World) (h : ReachDo w) :
    ∃ w2, Registry.Close w = some w2 ∧
      (∀ e ∈ w.reg.stackMap, isClosed w2 e.2 = true) ∧
      (∀ k p, w.reg.get k = some p → isClosed w2 p = true) ∧
      (∃ g, w.reg.global = some g ∧ isClosed w2 g = true) ∧
      w2.reg = w.reg ∧
      w2.heap.map Stack.config = w.heap.map Stack.config := by
  obtain ⟨w2, h2, hoc, hst, hg⟩ := Close_spec w (live_of_reachDo w h)
  refine ⟨w2, h2, hst, ?_, hg, hoc.1, hoc.2.2.1⟩
  intro k p hk
  exact hst (k, p) (lookup_mem k p _ hk)

/-- C6 (at most one live Stack per name). In every state reachable from
`NewRegistry` by `Do` passes, and for every name `k` (route identifier or group
name): two open Stacks that were ever stored under `k` are the same one; an open
Stack that was ever stored under `k` is the one stored under `k` now; a Stack
that was stored under `k` and is no longer the one stored there is closed; and
the Stack stored under `k` now was stored there by the registry and is open. -/
theorem C6_one_live_stack_per_name (w : World) (h : ReachDo w) (k : String) :
    (∀ p q, Event.stored k p ∈ w.trace → Event.stored k q ∈ w.trace →
      isOpen w p = true → isOpen w q = true → p = q) ∧
    (∀ p, Event.stored k p ∈ w.trace → isOpen w p = true → w.reg.get k = some p) ∧
    (∀ p, Event.stored k p ∈ w.trace → w.reg.get k ≠ some p → isClosed w p = true) ∧
    (∀ p, w.reg.get k = some p → Event.stored k p ∈ w.trace ∧ isOpen w p = true) := by
  have hi := inv_of_reachDo w h
  have hcur : ∀ p, Event.stored k p ∈ w.trace → isOpen w p = true → w.reg.get k = some p := by
    intro p hp ho
    by_contra hne
    exact not_open_and_closed w p ho (hi.dead k p hp hne)
  refine ⟨?_, hcur, hi.dead k, hi.live k⟩
  intro p q hp hq hop hoq
  have h1 := hcur p hp hop
  have h2 := hcur q hq hoq
  rw [h1] at h2
  exact Option.some.inj h2

/-! ## Concrete runs -/

theorem C1_idempotent_resolution_witness :
    sampleWorld.reg.get "r" = some 1 ∧
    sampleWorld.heap[1]? = some { config := ⟨1, 2, 3⟩, closed := false } ∧
    Do.configured 0 0 "r" ⟨1, 2, 3⟩ sampleWorld =
      some { sampleWorld with trace := sampleWorld.trace ++ [Event.bound 0 0 1] } ∧
    Registry.Do sampleWorld [⟨"r", [⟨some ⟨1, 2, 3⟩, none⟩]⟩] =
      some ({ sampleWorld with trace := sampleWorld.trace ++ [Event.bound 0 0 1] },
        [some ⟨"r", [⟨some ⟨1, 2, 3⟩, none⟩]⟩]) :=
  ⟨by decide, by decide,
    C1_idempotent_resolution sampleWorld 0 0 "r" ⟨1, 2, 3⟩ 1
      { config := ⟨1, 2, 3⟩, closed := false } (by decide) (by decide) rfl⟩

theorem C2_replacement_witness :
    isOpen sampleWorld 1 = true ∧
    ∃ w2, Do.configured 0 0 "r" ⟨1, 2, 4⟩ sampleWorld = some w2 ∧
      w2.trace = sampleWorld.trace ++ [Event.closed 1, Event.created 2 ⟨1, 2, 4⟩,
        Event.stored "r" 2, Event.bound 0 0 2] ∧
      2 ≠ 1 ∧
      w2.heap[1]? = some { config := ⟨1, 2, 3⟩, closed := true } ∧
      w2.heap[2]? = some { config := ⟨1, 2, 4⟩, closed := false } ∧
      w2.reg.get "r" = some 2 ∧
      boundTo 0 0 w2.trace = some 2 :=
  ⟨by decide,
    C2_replacement sampleWorld 0 0 "r" ⟨1, 2, 4⟩ 1 { config := ⟨1, 2, 3⟩, closed := false }
      (by decide) (by decide) rfl (Or.inr (Or.inr (by decide)))⟩

theorem C8_route_stack_config_witness :
    sampleWorld.reg.get "r" = some 1 ∧ isOpen sampleWorld 1 = true ∧
    ∃ w2 q obj, Do.configured 0 0 "r" ⟨1, 2, 4⟩ sampleWorld = some w2 ∧
      w2.trace.getLast? = some (Event.bound 0 0 q) ∧
      w2.heap[q]? = some obj ∧
      obj.config.MaxConcurrency = 1 ∧
      obj.config.MaxStackSize = 2 ∧
      obj.config.Timeout = 4 ∧
      w2.reg.get "r" = some q :=
  ⟨by decide, by decide,
    C8_route_stack_config sampleWorld 0 0 "r" ⟨1, 2, 4⟩ (by
      intro p hp
      have h1 : sampleWorld.reg.get "r" = some 1 := by decide
      rw [h1] at hp
      cases hp
      decide)⟩

theorem C10_routes_passed_through_witness :
    ReachDo sampleWorld ∧
    ∃ w2, Registry.Do sampleWorld clashTable = some (w2,
      [some { Id := "a", Filters := [{ config := none, groupName := some "g" }] },
       some { Id := "g", Filters := [{ config := some ⟨1, 1, 1⟩, groupName := none }] },
       some { Id := "b", Filters := [{ config := none, groupName := some "g" }] }]) :=
  have hr : ReachDo sampleWorld :=
    ReachDo.pass (NewRegistry ⟨5, 5, 5⟩ none) sampleWorld sampleTable (sampleTable.map some)
      (ReachDo.init ⟨5, 5, 5⟩ none) (by decide)
  ⟨hr, (C10_routes_passed_through sampleWorld clashTable).2 hr⟩

theorem C6_one_live_stack_per_name_witness :
    ReachDo replacedSample ∧
    Event.stored "r" 1 ∈ replacedSample.trace ∧
    Event.stored "r" 2 ∈ replacedSample.trace ∧
    replacedSample.reg.get "r" = some 2 ∧
    isClosed replacedSample 1 = true ∧
    isOpen replacedSample 2 = true :=
  have hr : ReachDo replacedSample :=
    ReachDo.pass (NewRegistry ⟨5, 5, 5⟩ none) replacedSample twoFilterTable
      (twoFilterTable.map some) (ReachDo.init ⟨5, 5, 5⟩ none) (by decide)
  ⟨hr, by decide, by decide, by decide,
    (C6_one_live_stack_per_name replacedSample hr "r").2.2.1 1 (by decide) (by decide),
    ((C6_one_live_stack_per_name replacedSample hr "r").2.2.2 2 (by decide)).2⟩

theorem C9_close_closes_all_witness :
    ReachDo replacedSample ∧
    ∃ w2, Registry.Close replacedSample = some w2 ∧
      (∀ e ∈ replacedSample.reg.stackMap, isClosed w2 e.2 = true) ∧
      (∀ k p, replacedSample.reg.get k = some p → isClosed w2 p = true) ∧
      (∃ g, replacedSample.reg.global = some g ∧ isClosed w2 g = true) ∧
      w2.reg = replacedSample.reg ∧
      w2.heap.map Stack.config = replacedSample.heap.map Stack.config :=
  have hr : ReachDo replacedSample :=
    ReachDo.pass (NewRegistry ⟨5, 5, 5⟩ none) replacedSample twoFilterTable
      (twoFilterTable.map some) (ReachDo.init ⟨5, 5, 5⟩ none) (by decide)
  ⟨hr, C9_close_closes_all replacedSample hr⟩

/-- C3 (group sharing), evaluated. On a new registry, one `Do` pass over
`clashTable` returns with the group filter of route 0 bound to address 1 and the
group filter of route 2, which declares the same group name, bound to address 2,
and address 1 closed: the per-route filter of the route named like the group
replaced the group Stack between the two. -/
theorem C3_group_sharing_broken_by_route_id :
    (Registry.Do (NewRegistry ⟨5, 5, 5⟩ none) clashTable).map
      (fun r => (boundTo 0 0 r.1.trace, boundTo 2 0 r.1.trace, isClosed r.1 1,
        r.1.reg.get "g")) =
      some (some 1, some 2, true, some 2) := by
  decide

/-- C4 (idempotent pass), evaluated. On a new registry, a second `Do` pass over
the unchanged `twoFilterTable` returns after closing two Stacks and creating two
new ones: its part of the history is exactly the eight events listed. -/
theorem C4_second_pass_recreates_stacks :
    ((Registry.Do (NewRegistry ⟨5, 5, 5⟩ none) twoFilterTable).bind
      (fun r => Registry.Do r.1 twoFilterTable)).map (fun r => r.1.trace.drop 8) =
      some [Event.closed 2, Event.created 3 ⟨1, 2, 3⟩, Event.stored "r" 3, Event.bound 0 0 3,
        Event.closed 3, Event.created 4 ⟨2, 2, 3⟩, Event.stored "r" 4, Event.bound 0 1 4] ∧
    (Registry.Do (NewRegistry ⟨5, 5, 5⟩ none) twoFilterTable).map (fun r => r.1.trace.length) =
      some 8 := by
  decide

/-- C5 (a group Stack is never replaced), evaluated. On a new registry, a pass
over `groupTable` stores the open Stack at address 1 under group name `"g"`; a
later pass over `laterTable` closes address 1, stores address 2 under `"g"` and
binds the later group filter of that name to address 2. -/
theorem C5_group_stack_replaced_by_route_id :
    (Registry.Do (NewRegistry ⟨5, 5, 5⟩ none) groupTable).map
      (fun r => (r.1.reg.get "g", isOpen r.1 1)) = some (some 1, true) ∧
    ((Registry.Do (NewRegistry ⟨5, 5, 5⟩ none) groupTable).bind
      (fun r => Registry.Do r.1 laterTable)).map
      (fun r => (r.1.reg.get "g", isClosed r.1 1, boundTo 1 0 r.1.trace)) =
      some (some 2, true, some 2) := by
  decide

/-- C7 (no filter on a closed Stack), evaluated. On a new registry, one `Do`
pass over `twoFilterTable` returns with the first filter of the route bound to
address 1, which is closed, while address 2 is the one stored and open. -/
theorem C7_filter_left_on_closed_stack :
    (Registry.Do (NewRegistry ⟨5, 5, 5⟩ none) twoFilterTable).map
      (fun r => (boundTo 0 0 r.1.trace, isClosed r.1 1, r.1.reg.get "r", isOpen r.1 2)) =
      some (some 1, true, some 2, true) := by
  decide

/-! ## Lifting a state property through a given table -/

theorem filter_lift_on (P : World → Prop) (K : String → Prop)
    (hc : ∀ w i j id c, K id → P w → ∃ w2, Do.configured i j id c w = some w2 ∧ P w2)
    (hg : ∀ w i j n, K n → P w → P (Do.group i j n w))
    (i j : Nat) (id : String) (f : Filter) (st : World × Bool)
    (hf : (f.config.isSome = true → K id) ∧ ∀ n, f.groupName = some n → K n) (h : P st.1) :
    ∃ st2, Do.filter i j id f st = some st2 ∧ P st2.1 := by
  obtain ⟨fc, fg⟩ := f
  cases fc with
  | none =>
    cases fg with
    | none => exact ⟨st, by simp [Do.filter], h⟩
    | some n =>
      exact ⟨(Do.group i j n st.1, true), by simp [Do.filter], hg _ _ _ _ (hf.2 n rfl) h⟩
  | some c =>
    obtain ⟨w2, h2, hp2⟩ := hc st.1 i j id c (hf.1 rfl) h
    cases fg with
    | none => exact ⟨(w2, true), by simp [Do.filter, h2], hp2⟩
    | some n =>
      exact ⟨(Do.group i j n w2, true), by simp [Do.filter, h2], hg _ _ _ _ (hf.2 n rfl) hp2⟩

theorem filters_lift_on (P : World → Prop) (K : String → Prop)
    (hc : ∀ w i j id c, K id → P w → ∃ w2, Do.configured i j id c w = some w2 ∧ P w2)
    (hg : ∀ w i j n, K n → P w → P (Do.group i j n w))
    (i : Nat) (id : String) :
    ∀ (fs : List Filter) (j : Nat) (st : World × Bool),
      (∀ f ∈ fs, (f.config.isSome = true → K id) ∧ ∀ n, f.groupName = some n → K n) →
      P st.1 → ∃ st2, Do.filters i id j fs st = some st2 ∧ P st2.1 := by
  intro fs
  induction fs with
  | nil => intro j st _ h; exact ⟨st, by simp [Do.filters], h⟩
  | cons f rest ih =>
    intro j st hfs h
    obtain ⟨st1, h1, hp1⟩ := filter_lift_on P K hc hg i j id f st (hfs f (by simp)) h
    obtain ⟨st2, h2, hp2⟩ :=
      ih (j + 1) st1 (fun g hgm => hfs g (List.mem_cons_of_mem _ hgm)) hp1
    exact ⟨st2, by simp [Do.filters, h1, h2], hp2⟩

theorem route_lift_on (P : World → Prop) (K : String → Prop)
    (hc : ∀ w i j id c, K id → P w → ∃ w2, Do.configured i j id c w = some w2 ∧ P w2)
    (hg : ∀ w i j n, K n → P w → P (Do.group i j n w))
    (hl : ∀ w i, P w → P { w with trace := w.trace ++ [Event.logged i] })
    (i : Nat) (ri : Route) (st : World × List (Option Route))
    (hfs : ∀ f ∈ ri.Filters, (f.config.isSome = true → K ri.Id) ∧
      ∀ n, f.groupName = some n → K n)
    (h : P st.1) :
    ∃ st2, Do.route i ri st = some st2 ∧ P st2.1 := by
  obtain ⟨⟨w2, found⟩, h2, hp2⟩ :=
    filters_lift_on P K hc hg i ri.Id ri.Filters 0 (st.1, false) hfs h
  cases found with
  | true => exact ⟨(w2, st.2.set i (some ri)), by simp [Do.route, h2], hp2⟩
  | false =>
    exact ⟨({ w2 with trace := w2.trace ++ [Event.logged i] }, st.2.set i (some ri)),
      by simp [Do.route, h2], hl _ _ hp2⟩

theorem routes_lift_on (P : World → Prop) (K : String → Prop)
    (hc : ∀ w i j id c, K id → P w → ∃ w2, Do.configured i j id c w = some w2 ∧ P w2)
    (hg : ∀ w i j n, K n → P w → P (Do.group i j n w))
    (hl : ∀ w i, P w → P { w with trace := w.trace ++ [Event.logged i] }) :
    ∀ (rs : List Route) (i : Nat) (st : World × List (Option Route)),
      (∀ r ∈ rs, ∀ f ∈ r.Filters, (f.config.isSome = true → K r.Id) ∧
        ∀ n, f.groupName = some n → K n) →
      P st.1 → ∃ st2, Do.routes i rs st = some st2 ∧ P st2.1 := by
  intro rs
  induction rs with
  | nil => intro i st _ h; exact ⟨st, by simp [Do.routes], h⟩
  | cons ri rest ih =>
    intro i st hrs h
    obtain ⟨st1, h1, hp1⟩ := route_lift_on P K hc hg hl i ri st (hrs ri (by simp)) h
    obtain ⟨st2, h2, hp2⟩ :=
      ih (i + 1) st1 (fun r hr => hrs r (List.mem_cons_of_mem _ hr)) hp1
    exact ⟨st2, by simp [Do.routes, h1, h2], hp2⟩

/-- A property of states preserved by the two branches of `Do` whenever they
work on a name satisfying `K` is preserved by `Do` on every table whose per-route
filters sit on routes named in `K` and whose group names are in `K`. -/
theorem Do_lift_on (P : World → Prop) (K : String → Prop)
    (hc : ∀ w i j id c, K id → P w → ∃ w2, Do.configured i j id c w = some w2 ∧ P w2)
    (hg : ∀ w i j n, K n → P w → P (Do.group i j n w))
    (hl : ∀ w i, P w → P { w with trace := w.trace ++ [Event.logged i] })
    (w : World) (rs : List Route)
    (hrs : ∀ r ∈ rs, ∀ f ∈ r.Filters, (f.config.isSome = true → K r.Id) ∧
      ∀ n, f.groupName = some n → K n)
    (h : P w) :
    ∃ w2 rr, Registry.Do w rs = some (w2, rr) ∧ P w2 := by
  obtain ⟨⟨w2, rr⟩, h2, hp2⟩ :=
    routes_lift_on P K hc hg hl rs 0 (w, List.replicate rs.length none) hrs h
  exact ⟨w2, rr, h2, hp2⟩

/-! ## What a pass leaves alone -/

theorem since_refl (w0 : World) (Q : Event → Prop) : Since w0 w0 Q :=
  ⟨[], by simp, by simp⟩

theorem since_extend (w0 w w2 : World) (Q : Event → Prop) (es : List Event)
    (h : Since w0 w Q) (ht : w2.trace = w.trace ++ es) (hq : ∀ e ∈ es, Q e) :
    Since w0 w2 Q := by
  obtain ⟨t, h1, h2⟩ := h
  refine ⟨t ++ es, by rw [ht, h1, List.append_assoc], ?_⟩
  intro e he
  rcases List.mem_append.mp he with h3 | h3
  · exact h2 e h3
  · exact hq e h3

theorem heap_created_lt (w : World) (i j : Nat) (name : String) (c : Config) (a : Nat)
    (ha : a < w.heap.length) : (createdWorld w i j name c).heap[a]? = w.heap[a]? := by
  simp [createdWorld, List.getElem?_append, ha]

theorem heap_replaced_ne (w : World) (i j : Nat) (id : String) (c : Config) (p0 : Nat)
    (s : Stack) (a : Nat) (ha : a < w.heap.length) (hne : p0 ≠ a) :
    (replacedWorld w i j id c p0 s).heap[a]? = w.heap[a]? := by
  simp [replacedWorld, List.getElem?_append, ha, List.getElem?_set, hne]

theorem filters_plain (i : Nat) (id : String) :
    ∀ (fs : List Filter) (j : Nat) (st : World × Bool),
      (∀ f ∈ fs, f.config = none ∧ f.groupName = none) → Do.filters i id j fs st = some st := by
  intro fs
  induction fs with
  | nil => intro j st _; simp [Do.filters]
  | cons f rest ih =>
    intro j st h
    have hf := h f (by simp)
    have h1 : Do.filter i j id f st = some st := by simp [Do.filter, hf.1, hf.2]
    simp [Do.filters, h1, ih (j + 1) st (fun g hg => h g (List.mem_cons_of_mem _ hg))]

/-- A route without scheduler filter: only `rr[i]` is written and the error is
logged. -/
theorem route_plain (i : Nat) (ri : Route) (st : World × List (Option Route))
    (h : ∀ f ∈ ri.Filters, f.config = none ∧ f.groupName = none) :
    Do.route i ri st =
      some ({ st.1 with trace := st.1.trace ++ [Event.logged i] }, st.2.set i (some ri)) := by
  simp [Do.route, filters_plain i ri.Id ri.Filters 0 (st.1, false) h]

/-- No pass removes a name from the map. -/
theorem names_kept (w : World) (hv : Live w) (rs : List Route) :
    ∃ w2 rr, Registry.Do w rs = some (w2, rr) ∧
      ∀ k, (w.reg.get k).isSome = true → (w2.reg.get k).isSome = true := by
  have key := Do_lift
    (fun x => Live x ∧ ∀ k, (w.reg.get k).isSome = true → (x.reg.get k).isSome = true)
    (by
      intro x i j id c hx
      rcases configured_cases x i j id c (live_open x hx.1 id) with
        ⟨_, e⟩ | ⟨p, s, _, _, _, e⟩ | ⟨p, s, hget, _, _, e⟩
      · refine ⟨_, e, live_created x hx.1 i j id c, ?_⟩
        intro k hk
        rw [get_created]
        by_cases h : k = id
        · simp [h]
        · simpa [h] using hx.2 k hk
      · exact ⟨_, e, live_kept x hx.1 i j p, hx.2⟩
      · refine ⟨_, e, live_replaced x hx.1 i j id c p s hget, ?_⟩
        intro k hk
        rw [get_replaced]
        by_cases h : k = id
        · simp [h]
        · simpa [h] using hx.2 k hk)
    (by
      intro x i j n hx
      rcases group_cases x i j n with ⟨_, e⟩ | ⟨p, _, e⟩
      · rw [e]
        refine ⟨live_created x hx.1 i j n _, ?_⟩
        intro k hk
        rw [get_created]
        by_cases h : k = n
        · simp [h]
        · simpa [h] using hx.2 k hk
      · rw [e]; exact ⟨live_kept x hx.1 i j p, hx.2⟩)
    (fun x i h => ⟨live_logged x i h.1, h.2⟩) w rs ⟨hv, fun _ h => h⟩
  obtain ⟨w2, rr, h2, _, hk⟩ := key
  exact ⟨w2, rr, h2, hk⟩

/-- A Stack stored under a name the table does not touch stays stored under it,
keeps its state, and is not closed during the pass. -/
theorem untouched_kept (w : World) (hs : Live w) (rs : List Route) (k : String) (p : Nat)
    (hu : Untouched k rs) (hget : w.reg.get k = some p) :
    ∃ w2 rr, Registry.Do w rs = some (w2, rr) ∧ w2.reg.get k = some p ∧
      w2.heap[p]? = w.heap[p]? ∧ Since w w2 (fun e => e ≠ Event.closed p) := by
  have key := Do_lift_on
    (fun x => Live x ∧ x.reg.get k = some p ∧ x.heap[p]? = w.heap[p]? ∧
      Since w x (fun e => e ≠ Event.closed p))
    (fun name => name ≠ k)
    (by
      intro x i j id c hid hx
      obtain ⟨hlx, hgx, hhx, htx⟩ := hx
      have hsx := sound_of_live x hlx
      have hlt : p < x.heap.length := stored_lt x hsx.1.1 k p hgx
      rcases configured_cases x i j id c (live_open x hlx id) with
        ⟨_, e⟩ | ⟨p0, s, _, _, _, e⟩ | ⟨p0, s, hg0, _, _, e⟩
      · refine ⟨_, e, live_created x hlx i j id c, ?_, ?_, ?_⟩
        · rw [get_created]; simpa [Ne.symm hid] using hgx
        · rw [heap_created_lt x i j id c p hlt]; exact hhx
        · exact since_extend w x _ _ _ htx rfl (by simp)
      · refine ⟨_, e, live_kept x hlx i j p0, hgx, hhx, ?_⟩
        exact since_extend w x _ _ [Event.bound i j p0] htx rfl (by simp)
      · have hne : p0 ≠ p := by
          intro h
          subst h
          exact hid (hsx.2.1 id k p0 hg0 hgx)
        refine ⟨_, e, live_replaced x hlx i j id c p0 s hg0, ?_, ?_, ?_⟩
        · rw [get_replaced]; simpa [Ne.symm hid] using hgx
        · rw [heap_replaced_ne x i j id c p0 s p hlt hne]; exact hhx
        · exact since_extend w x _ _ _ htx rfl (by simp [hne]))
    (by
      intro x i j n hn hx
      obtain ⟨hlx, hgx, hhx, htx⟩ := hx
      have hsx := sound_of_live x hlx
      have hlt : p < x.heap.length := stored_lt x hsx.1.1 k p hgx
      rcases group_cases x i j n with ⟨_, e⟩ | ⟨p0, _, e⟩
      · rw [e]
        refine ⟨live_created x hlx i j n _, ?_, ?_, ?_⟩
        · rw [get_created]; simpa [Ne.symm hn] using hgx
        · rw [heap_created_lt x i j n _ p hlt]; exact hhx
        · exact since_extend w x _ _ _ htx rfl (by simp)
      · rw [e]
        refine ⟨live_kept x hlx i j p0, hgx, hhx, ?_⟩
        exact since_extend w x _ _ [Event.bound i j p0] htx rfl (by simp))
    (by
      intro x i hx
      obtain ⟨hlx, hgx, hhx, htx⟩ := hx
      exact ⟨live_logged x i hlx, hgx, hhx, since_extend w x _ _ [Event.logged i] htx rfl (by simp)⟩)
    w rs
    (by
      intro r hr f hf
      have := hu r hr f hf
      refine ⟨this.1, ?_⟩
      intro n hn hnk
      subst hnk
      exact this.2 hn)
    ⟨hs, hget, rfl, since_refl w _⟩
  obtain ⟨w2, rr, h2, _, h3, h4, h5⟩ := key
  exact ⟨w2, rr, h2, h3, h4, h5⟩

/-- The global Stack keeps its state during a pass, is not closed, and is
passed to no filter. -/
theorem global_kept (w : World) (hs : Live w) (rs : List Route) (g : Nat)
    (hg : w.reg.global = some g) :
    ∃ w2 rr, Registry.Do w rs = some (w2, rr) ∧ w2.reg.global = some g ∧
      w2.heap[g]? = w.heap[g]? ∧
      Since w w2 (fun e => e ≠ Event.closed g ∧ ∀ i j, e ≠ Event.bound i j g) := by
  have key := Do_lift
    (fun x => Live x ∧ x.reg.global = some g ∧ x.heap[g]? = w.heap[g]? ∧
      Since w x (fun e => e ≠ Event.closed g ∧ ∀ i j, e ≠ Event.bound i j g))
    (by
      intro x i j id c hx
      obtain ⟨hlx, hgx, hhx, htx⟩ := hx
      have hsx := sound_of_live x hlx
      have hlt : g < x.heap.length := by
        obtain ⟨g2, h1, h2⟩ := hsx.1.2
        rw [hgx] at h1
        cases h1
        exact h2
      have hfresh : x.heap.length ≠ g := by omega
      rcases configured_cases x i j id c (live_open x hlx id) with
        ⟨_, e⟩ | ⟨p0, s, hg0, _, _, e⟩ | ⟨p0, s, hg0, _, _, e⟩
      · refine ⟨_, e, live_created x hlx i j id c, hgx, ?_, ?_⟩
        · rw [heap_created_lt x i j id c g hlt]; exact hhx
        · exact since_extend w x _ _ _ htx rfl (by simp [hfresh])
      · have hne : p0 ≠ g := fun h => hsx.2.2 id g hgx (by rw [hg0, h])
        refine ⟨_, e, live_kept x hlx i j p0, hgx, hhx, ?_⟩
        exact since_extend w x _ _ [Event.bound i j p0] htx rfl (by simp [hne])
      · have hne : p0 ≠ g := fun h => hsx.2.2 id g hgx (by rw [hg0, h])
        refine ⟨_, e, live_replaced x hlx i j id c p0 s hg0, hgx, ?_, ?_⟩
        · rw [heap_replaced_ne x i j id c p0 s g hlt hne]; exact hhx
        · exact since_extend w x _ _ _ htx rfl (by simp [hne, hfresh]))
    (by
      intro x i j n hx
      obtain ⟨hlx, hgx, hhx, htx⟩ := hx
      have hsx := sound_of_live x hlx
      have hlt : g < x.heap.length := by
        obtain ⟨g2, h1, h2⟩ := hsx.1.2
        rw [hgx] at h1
        cases h1
        exact h2
      have hfresh : x.heap.length ≠ g := by omega
      rcases group_cases x i j n with ⟨_, e⟩ | ⟨p0, hg0, e⟩
      · rw [e]
        refine ⟨live_created x hlx i j n _, hgx, ?_, ?_⟩
        · rw [heap_created_lt x i j n _ g hlt]; exact hhx
        · exact since_extend w x _ _ _ htx rfl (by simp [hfresh])
      · have hne : p0 ≠ g := fun h => hsx.2.2 n g hgx (by rw [hg0, h])
        rw [e]
        refine ⟨live_kept x hlx i j p0, hgx, hhx, ?_⟩
        exact since_extend w x _ _ [Event.bound i j p0] htx rfl (by simp [hne]))
    (by
      intro x i hx
      obtain ⟨hlx, hgx, hhx, htx⟩ := hx
      exact ⟨live_logged x i hlx, hgx, hhx, since_extend w x _ _ [Event.logged i] htx rfl (by simp)⟩)
    w rs ⟨hs, hg, rfl, since_refl w _⟩
  obtain ⟨w2, rr, h2, _, h3, h4, h5⟩ := key
  exact ⟨w2, rr, h2, h3, h4, h5⟩

/-! ## Construction and group Stacks -/

/-- C11 (`NewRegistry`). The new registry points to a global Stack that is the
only allocated object, is open and holds the config `global`; its `groupConfig`
is the map it was given; its map of Stacks is empty, so no name has a Stack; and
the only thing that happened is the allocation of the global Stack. -/
theorem C11_new_registry (global : Config) (groups : Option (List (String × Config))) :
    (NewRegistry global groups).reg.global = some 0 ∧
    (NewRegistry global groups).heap = [{ config := global, closed := false }] ∧
    (NewRegistry global groups).reg.groupConfig = groups ∧
    (NewRegistry global groups).reg.stackMap = [] ∧
    (∀ k, (NewRegistry global groups).reg.get k = none) ∧
    (NewRegistry global groups).trace = [Event.created 0 global] := by
  refine ⟨rfl, rfl, rfl, rfl, ?_, rfl⟩
  intro k
  rfl

/-- C14 (group Stack creation). When no Stack is stored under group name `n`,
the group branch allocates one new open Stack at the next free address, stores
it under `n` and passes it to `SetStack`, doing nothing else; the config of that
Stack is the entry of `n` in `groupConfig` when there is one, and the zero config
when the map has no such entry or is nil. A whole `Do` pass over a table made of
that one group filter does exactly the same. -/
theorem C14_group_stack_creation (w : World) (i j : Nat) (n : String)
    (hnone : w.reg.get n = none) :
    (Do.group i j n w).trace = w.trace ++ [Event.created w.heap.length (w.reg.groupConfigAt n),
      Event.stored n w.heap.length, Event.bound i j w.heap.length] ∧
    (Do.group i j n w).heap =
      w.heap ++ [{ config := w.reg.groupConfigAt n, closed := false }] ∧
    (Do.group i j n w).reg.get n = some w.heap.length ∧
    (∀ m c, w.reg.groupConfig = some m → lookup n m = some c → w.reg.groupConfigAt n = c) ∧
    (∀ m, w.reg.groupConfig = some m → lookup n m = none →
      w.reg.groupConfigAt n = { MaxConcurrency := 0, MaxStackSize := 0, Timeout := 0 }) ∧
    (w.reg.groupConfig = none →
      w.reg.groupConfigAt n = { MaxConcurrency := 0, MaxStackSize := 0, Timeout := 0 }) ∧
    (∀ id, Registry.Do w [⟨id, [⟨none, some n⟩]⟩] =
      some (Do.group 0 0 n w, [some ⟨id, [⟨none, some n⟩]⟩])) := by
  have hg : ∀ a b, Do.group a b n w = createdWorld w a b n (w.reg.groupConfigAt n) :=
    fun a b => group_absent w a b n hnone
  refine ⟨?_, ?_, ?_, ?_, ?_, ?_, ?_⟩
  · rw [hg]; rfl
  · rw [hg]; rfl
  · rw [hg]; simp [createdWorld, Registry.get, lookup_insert_same]
  · intro m c hm hl
    simp [Registry.groupConfigAt, hm, hl]
  · intro m hm hl
    simp [Registry.groupConfigAt, hm, hl, Config.zero]
  · intro hm
    simp [Registry.groupConfigAt, hm, Config.zero]
  · intro id
    simp [Registry.Do, Do.routes, Do.route, Do.filters, Do.filter]

/-! ## The frame of a pass -/

/-- C16 (frame of `Do`). From every state reachable from `NewRegistry` by `Do`
passes, `Do` returns; every name that had a Stack still has one; and a Stack
stored under a name that is neither the identifier of a route of the table
carrying a `ConfiguredFilter` nor the `GroupName()` of a `GroupFilter` of the
table is still the one stored under that name, is unchanged and open, and no
`close` was called on it during the pass. -/
theorem C16_frame_of_Do (w : World) (h : ReachDo w) (rs : List Route) :
    ∃ w2 rr, Registry.Do w rs = some (w2, rr) ∧
      (∀ k, (w.reg.get k).isSome = true → (w2.reg.get k).isSome = true) ∧
      (∀ k p, Untouched k rs → w.reg.get k = some p →
        w2.reg.get k = some p ∧ w2.heap[p]? = w.heap[p]? ∧
        isOpen w2 p = true ∧
        ∃ t, w2.trace = w.trace ++ t ∧ Event.closed p ∉ t) := by
  have hl := live_of_reachDo w h
  obtain ⟨w2, rr, hdo, hnames⟩ := names_kept w hl rs
  refine ⟨w2, rr, hdo, hnames, ?_⟩
  intro k p hu hget
  obtain ⟨w3, rr3, h3, hg3, hh3, t, ht, hq⟩ := untouched_kept w hl rs k p hu hget
  rw [h3] at hdo
  cases hdo
  refine ⟨hg3, hh3, ?_, t, ht, fun hmem => hq _ hmem rfl⟩
  have ho := live_open w hl k p hget
  simpa [isOpen, hh3] using ho

/-- C17 (`Do` never uses the global Stack). From every state reachable from
`NewRegistry` by `Do` passes, `Do` returns with the same global pointer; the
global Stack is unchanged and open; during the pass no `close` is called on it
and it is passed to no `SetStack`. A route without `ConfiguredFilter` and
without `GroupFilter` changes neither the heap nor the registry, in any state:
the loop body only logs the error. -/
theorem C17_global_never_used (w : World) (h : ReachDo w) (rs : List Route) :
    (∃ w2 rr g, Registry.Do w rs = some (w2, rr) ∧
      w.reg.global = some g ∧ w2.reg.global = some g ∧
      w2.heap[g]? = w.heap[g]? ∧
      isOpen w2 g = true ∧
      ∃ t, w2.trace = w.trace ++ t ∧ Event.closed g ∉ t ∧ ∀ i j, Event.bound i j g ∉ t) ∧
    (∀ i ri st, (∀ f ∈ ri.Filters, f.config = none ∧ f.groupName = none) →
      Do.route i ri st =
        some ({ st.1 with trace := st.1.trace ++ [Event.logged i] }, st.2.set i (some ri))) := by
  have hl := live_of_reachDo w h
  obtain ⟨g, hg, hgo, _⟩ := hl.globalOpen
  obtain ⟨w2, rr, hdo, hg2, hh2, t, ht, hq⟩ := global_kept w hl rs g hg
  have hopen : isOpen w2 g = true := by
    simpa [isOpen, hh2] using hgo
  refine ⟨⟨w2, rr, g, hdo, hg, hg2, hh2, hopen, t, ht, ?_, ?_⟩, ?_⟩
  · exact fun hmem => (hq _ hmem).1 rfl
  · exact fun i j hmem => (hq _ hmem).2 i j rfl
  · intro i ri st hplain
    exact route_plain i ri st hplain

/-- C15 (`Close` is to be called once). In every state reachable from
`NewRegistry` by `Do` passes the first `Close` returns, leaves the registry (the
stored names and addresses, the global pointer) as it was and every stored Stack
and the global Stack closed; a second `Close` then fails, because it calls
`close` again on a Stack that is already closed. -/
theorem C15_close_once (w : World) (h : ReachDo w) :
    ∃ w1, Registry.Close w = some w1 ∧
      w1.reg = w.reg ∧
      (∀ e ∈ w.reg.stackMap, isClosed w1 e.2 = true) ∧
      (∃ g, w.reg.global = some g ∧ isClosed w1 g = true) ∧
      Registry.Close w1 = none := by
  obtain ⟨w1, h1, hoc, hst, g, hg, hgc⟩ := Close_spec w (live_of_reachDo w h)
  refine ⟨w1, h1, hoc.1, hst, ⟨g, hg, hgc⟩, ?_⟩
  unfold Registry.Close
  rw [hoc.1]
  cases hm : w.reg.stackMap with
  | nil => simp [closeAll, hoc.1, hg, close_closed w1 g hgc]
  | cons d rest =>
    obtain ⟨k, p⟩ := d
    have hp : isClosed w1 p = true := hst (k, p) (by rw [hm]; simp)
    simp [closeAll, close_closed w1 p hp]

/-- Counterexample to C15 as stated. On the state left by one `Do` pass the
first `Close` returns and the second one fails: it calls `close` again on the
Stack of route `"r"`, which the first call closed. On a registry that never
saw a `Do` pass the second `Close` fails on the global Stack. -/
theorem C15_second_close_fails :
    (Registry.Close sampleWorld).isSome = true ∧
    (Registry.Close sampleWorld).bind Registry.Close = none ∧
    (Registry.Close (NewRegistry ⟨5, 5, 5⟩ none)).isSome = true ∧
    (Registry.Close (NewRegistry ⟨5, 5, 5⟩ none)).bind Registry.Close = none := by
  decide

theorem C14_group_stack_creation_witness :
    groupedStart.reg.get "g" = none ∧
    (Do.group 0 0 "g" groupedStart).reg.get "g" = some 1 ∧
    groupedStart.reg.groupConfigAt "g" = { MaxConcurrency := 3, MaxStackSize := 4, Timeout := 5 } :=
  ⟨by decide, (C14_group_stack_creation groupedStart 0 0 "g" (by decide)).2.2.1,
    (C14_group_stack_creation groupedStart 0 0 "g" (by decide)).2.2.2.1
      [("g", ⟨3, 4, 5⟩)] ⟨3, 4, 5⟩ rfl (by decide)⟩

theorem C16_frame_of_Do_witness :
    ReachDo sampleWorld ∧ Untouched "r" clashTable ∧
    ∃ w2 rr, Registry.Do sampleWorld clashTable = some (w2, rr) ∧
      w2.reg.get "r" = some 1 ∧ isOpen w2 1 = true := by
  have hr : ReachDo sampleWorld :=
    ReachDo.pass (NewRegistry ⟨5, 5, 5⟩ none) sampleWorld sampleTable (sampleTable.map some)
      (ReachDo.init ⟨5, 5, 5⟩ none) (by decide)
  obtain ⟨w2, rr, hdo, _, hfr⟩ := C16_frame_of_Do sampleWorld hr clashTable
  have h1 := hfr "r" 1 (by decide) (by decide)
  exact ⟨hr, by decide, w2, rr, hdo, h1.1, h1.2.2.1⟩

theorem C15_close_once_witness :
    ReachDo replacedSample ∧
    ∃ w1, Registry.Close replacedSample = some w1 ∧
      w1.reg = replacedSample.reg ∧
      (∀ e ∈ replacedSample.reg.stackMap, isClosed w1 e.2 = true) ∧
      (∃ g, replacedSample.reg.global = some g ∧ isClosed w1 g = true) ∧
      Registry.Close w1 = none :=
  have hr : ReachDo replacedSample :=
    ReachDo.pass (NewRegistry ⟨5, 5, 5⟩ none) replacedSample twoFilterTable
      (twoFilterTable.map some) (ReachDo.init ⟨5, 5, 5⟩ none) (by decide)
  ⟨hr, C15_close_once replacedSample hr⟩

theorem C17_global_never_used_witness :
    ReachDo sampleWorld ∧
    ∃ w2 rr, Registry.Do sampleWorld (plainTable ++ clashTable) = some (w2, rr) ∧
      w2.reg.global = some 0 ∧ isOpen w2 0 = true := by
  have hr : ReachDo sampleWorld :=
    ReachDo.pass (NewRegistry ⟨5, 5, 5⟩ none) sampleWorld sampleTable (sampleTable.map some)
      (ReachDo.init ⟨5, 5, 5⟩ none) (by decide)
  obtain ⟨⟨w2, rr, g, hdo, hg, hg2, _, hopen, _⟩, _⟩ :=
    C17_global_never_used sampleWorld hr (plainTable ++ clashTable)
  have hg0 : g = 0 := by
    have h0 : sampleWorld.reg.global = some 0 := rfl
    rw [h0] at hg
    exact (Option.some.inj hg).symm
  subst hg0
  exact ⟨hr, w2, rr, hdo, hg2, hopen⟩

end Scheduler
